import Mathlib

/-!
# Airline boarding simulation (`main.cpp`): gates, barrier and drivers

A shallow embedding of the coordination core of `main.cpp`.

* `BoardingGate` wraps a `counting_semaphore<1>`; its counter is a natural number, `acquire`
  on counter zero is a step that is not enabled, `release` adds one.
* `boardGroup` is a small-step machine (`GroupRun.step`): the calling thread and the passenger
  threads are scheduled by a list of `GroupAction`s, and every step appends what it prints or
  does to a log of `Event`s. `std::barrier` is embedded by its counter of missing arrivals and
  its number of completed phases; the thread whose arrival brings the counter to zero runs the
  completion function, after which the waiting threads leave.
* The gate-search loops of `manualSimulation` and `automatedSimulation` are embedded both as
  sequential scan passes (`manualScanPass`, `automatedScanPass`) and as the driver thread of
  the interleaved machine `System.step`, in which every semaphore operation is one step.
* The input part of `manualSimulation` reads from a `Console`: the lines of `cin` as far as the
  program looks at them, with what `getline` does at the end of the input. `automatedSimulation`
  is the machine `AutomatedRun.step`, whose driver takes the sizes from `groupSizes`.
* The `int`s of the program (ids, sizes, loop counters) are integers; console output only
  appears as log events; the random delays are the freedom of the scheduler.
-/

namespace Boarding

/-! ## BoardingGate -/

/-- The class `BoardingGate`: the gate id and the counter of `counting_semaphore<1> gateSemaphore`. -/
structure BoardingGate where
  id : Int
  gateSemaphore : Nat
deriving DecidableEq, Repr

namespace BoardingGate

/-- The constructor `BoardingGate(int gateId) : id(gateId), gateSemaphore(1)`. -/
def new (gateId : Int) : BoardingGate := ⟨gateId, 1⟩

/-- The method `try_acquire()`: `gateSemaphore.try_acquire()` decrements the counter when it is positive
and returns whether it did; it never blocks. -/
def try_acquire (g : BoardingGate) : Bool × BoardingGate :=
  if 0 < g.gateSemaphore then (true, { g with gateSemaphore := g.gateSemaphore - 1 })
  else (false, g)

/-- The method `acquire()`: `gateSemaphore.acquire()` decrements a positive counter; with counter zero the
caller stays blocked, which is `none` (the step is not enabled). -/
def acquire (g : BoardingGate) : Option BoardingGate :=
  if 0 < g.gateSemaphore then some { g with gateSemaphore := g.gateSemaphore - 1 } else none

/-- The method `release()`: `gateSemaphore.release()` adds one to the counter. The method is `void`,
checks nothing and reports nothing. -/
def release (g : BoardingGate) : BoardingGate :=
  { g with gateSemaphore := g.gateSemaphore + 1 }

/-- The accessor `getId()`. -/
def getId (g : BoardingGate) : Int := g.id

/-- A gate is free when its semaphore can be taken. -/
def isFree (g : BoardingGate) : Prop := 0 < g.gateSemaphore

/-- A gate is held when its semaphore counter is zero. -/
def isHeld (g : BoardingGate) : Prop := g.gateSemaphore = 0

instance (g : BoardingGate) : Decidable g.isFree := by unfold isFree; infer_instance

instance (g : BoardingGate) : Decidable g.isHeld := by unfold isHeld; infer_instance

/-- The counter is within the range of `counting_semaphore<1>`. -/
def wellFormed (g : BoardingGate) : Prop := g.gateSemaphore ≤ 1

instance (g : BoardingGate) : Decidable g.wellFormed := by unfold wellFormed; infer_instance

end BoardingGate

/-- The pool built in `main`: gates 1, 2 and 3. -/
def mainGates : List BoardingGate :=
  [BoardingGate.new 1, BoardingGate.new 2, BoardingGate.new 3]

/-- The schedule passed to `automatedSimulation` in `main`. -/
def mainGroupSizes : List Int := [5, 4, 6, 3, 7]

/-! ## Gate search: one pass over the pool -/

/-- One pass of `for (auto& gate : gates)` in `manualSimulation`: the first gate whose
`try_acquire()` succeeds becomes `assignedGate` and is released at once. The result is the
index of `assignedGate` in the pool (`none` for `nullptr`) and the pool afterwards. -/
def manualScanPass : List BoardingGate → Option Nat × List BoardingGate
  | [] => (none, [])
  | gate :: rest =>
    if gate.try_acquire.1 then
      (some 0, gate.try_acquire.2.release :: rest)
    else
      ((manualScanPass rest).1.map (· + 1), gate.try_acquire.2 :: (manualScanPass rest).2)

/-- One pass of `for (auto& gate : gates)` in `automatedSimulation`: the first gate whose
`try_acquire()` succeeds is released and a `boardGroup` thread is started on it. The result is
`gateAssigned`, the index of the gate handed to the thread, and the pool afterwards. -/
def automatedScanPass : List BoardingGate → Bool × Option Nat × List BoardingGate
  | [] => (false, none, [])
  | gate :: rest =>
    if gate.try_acquire.1 then
      (true, some 0, gate.try_acquire.2.release :: rest)
    else
      ((automatedScanPass rest).1, (automatedScanPass rest).2.1.map (· + 1),
        gate.try_acquire.2 :: (automatedScanPass rest).2.2)

/-- The first `k` rounds of `while (!assignedGate)` in `manualSimulation`, as long as no gate is
found: the outcome of every pass made and the pool afterwards. -/
def manualScanPasses : Nat → List BoardingGate → List (Option Nat) × List BoardingGate
  | 0, gates => ([], gates)
  | k + 1, gates =>
    match manualScanPass gates with
    | (some a, gates1) => ([some a], gates1)
    | (none, gates1) => (none :: (manualScanPasses k gates1).1, (manualScanPasses k gates1).2)

/-- The first `k` rounds of `while (!gateAssigned)` in `automatedSimulation`, as long as no gate
is found: `gateAssigned` after every pass made and the pool afterwards. -/
def automatedScanPasses : Nat → List BoardingGate → List Bool × List BoardingGate
  | 0, gates => ([], gates)
  | k + 1, gates =>
    match automatedScanPass gates with
    | (true, _, gates1) => ([true], gates1)
    | (false, _, gates1) =>
      (false :: (automatedScanPasses k gates1).1, (automatedScanPasses k gates1).2)

/-! ## boardGroup: the calling thread, the passenger threads and the barrier -/

/-- What a run of `boardGroup` prints and does, in the order it happens. -/
inductive Event where
  /-- The line `Group g started boarding at Gate k`. -/
  | groupStarted (groupId gateId : Int)
  /-- The call `gate->acquire()` returned. -/
  | gateAcquired (gateId : Int)
  /-- The call `passengers.emplace_back(...)` started the thread of passenger `i`. -/
  | passengerSpawned (passengerId : Int)
  /-- The line `Group g Passenger i boarding at Gate k`. -/
  | passengerBoarding (groupId passengerId gateId : Int)
  /-- The line `Group g Passenger i finished boarding at Gate k`. -/
  | passengerFinished (groupId passengerId gateId : Int)
  /-- The passenger thread entered `boardingBarrier.arrive_and_wait()`. -/
  | passengerArrived (passengerId : Int)
  /-- The line `Group g completed boarding at Gate k. Gate released.` -/
  | groupCompleted (groupId gateId : Int)
  /-- The call `gate->release()` in the completion function of the barrier. -/
  | gateReleased (gateId : Int)
deriving DecidableEq, Repr

namespace Event

/-- The event is the `gate->release()` of the barrier completion. -/
def isRelease : Event → Bool
  | gateReleased _ => true
  | _ => false

/-- The event is `gate->acquire()` returning. -/
def isAcquire : Event → Bool
  | gateAcquired _ => true
  | _ => false

/-- The event is a barrier arrival of a passenger whose id satisfies `q`. -/
def isArrival (q : Int → Bool) : Event → Bool
  | passengerArrived i => q i
  | _ => false

/-- The event is the `finished boarding` line of a passenger whose id satisfies `q`. -/
def isFinished (q : Int → Bool) : Event → Bool
  | passengerFinished _ i _ => q i
  | _ => false

end Event

/-- Where a passenger thread stands in the lambda of `boardGroup`
(`boardPassenger(...)` then `boardingBarrier.arrive_and_wait()`). -/
inductive PassengerPc where
  /-- Started, before the `boarding` line. -/
  | boarding
  /-- In `sleep_for`, before the `finished boarding` line. -/
  | sleeping
  /-- After `boardPassenger` returned, before `arrive_and_wait()`. -/
  | arriving
  /-- Arrived last: about to run the completion function of the barrier. -/
  | completing
  /-- Arrived, blocked until the phase of the barrier completes. -/
  | waiting
  /-- The thread has ended. -/
  | done
deriving DecidableEq, Repr

namespace PassengerPc

/-- The thread has printed its `finished boarding` line. -/
def hasFinished : PassengerPc → Bool
  | boarding => false
  | sleeping => false
  | _ => true

/-- The thread has arrived at the barrier. -/
def hasArrived : PassengerPc → Bool
  | completing => true
  | waiting => true
  | done => true
  | _ => false

/-- The number of steps the thread can still take, at most. -/
def weight : PassengerPc → Nat
  | boarding => 4
  | sleeping => 3
  | arriving => 2
  | completing => 1
  | waiting => 1
  | done => 0

end PassengerPc

/-- One element of `vector<thread> passengers`: the captured `i` and the state of the thread. -/
structure Passenger where
  passengerId : Int
  pc : PassengerPc
deriving DecidableEq, Repr

/-- The state of `barrier boardingBarrier(groupSize, completion)`: the count it was built with,
the arrivals still missing in the current phase, and the number of completed phases. -/
structure Barrier where
  expected : Int
  pending : Int
  phase : Nat
deriving DecidableEq, Repr

/-- Where the thread that called `boardGroup` stands. -/
inductive GroupPc where
  /-- Before the `started boarding` line. -/
  | start
  /-- Before `gate->acquire()`. -/
  | acquiring
  /-- At the test `i <= groupSize` of the spawn loop. -/
  | spawning (i : Int)
  /-- At `t.join()` for the passenger thread at index `j`. -/
  | joining (j : Nat)
  /-- After `boardGroup` has returned. -/
  | returned
deriving DecidableEq, Repr

/-- The state of one call `boardGroup(groupId, groupSize, gate)`. -/
structure GroupRun where
  groupId : Int
  groupSize : Int
  pc : GroupPc
  passengers : List Passenger
  boardingBarrier : Barrier
  log : List Event
deriving DecidableEq, Repr

/-- The threads of one `boardGroup` call: the caller and passenger thread `k` (index in
`passengers`). -/
inductive GroupAction where
  | main
  | passenger (k : Nat)
deriving DecidableEq, Repr

namespace GroupRun

/-- Entry of `boardGroup`: the barrier is built with `groupSize`, no thread exists yet. -/
def init (groupId groupSize : Int) : GroupRun :=
  { groupId := groupId, groupSize := groupSize, pc := .start, passengers := [],
    boardingBarrier := ⟨groupSize, groupSize, 0⟩, log := [] }

/-- Passenger thread `k` moves to `pc`. -/
def setPc (r : GroupRun) (k : Nat) (p : Passenger) (pc : PassengerPc) : List Passenger :=
  r.passengers.set k { p with pc := pc }

/-- One step of the thread that called `boardGroup`. -/
def stepMain (r : GroupRun) (gate : BoardingGate) : Option (GroupRun × BoardingGate) :=
  match r.pc with
  | .start =>
    some ({ r with pc := .acquiring,
                   log := r.log ++ [.groupStarted r.groupId gate.getId] }, gate)
  | .acquiring =>
    match gate.acquire with
    | some gate1 =>
      some ({ r with pc := .spawning 1, log := r.log ++ [.gateAcquired gate.getId] }, gate1)
    | none => none
  | .spawning i =>
    if i ≤ r.groupSize then
      some ({ r with pc := .spawning (i + 1),
                     passengers := r.passengers ++ [⟨i, .boarding⟩],
                     log := r.log ++ [.passengerSpawned i] }, gate)
    else
      some ({ r with pc := .joining 0 }, gate)
  | .joining j =>
    match r.passengers[j]? with
    | none => some ({ r with pc := .returned }, gate)
    | some p => if p.pc = .done then some ({ r with pc := .joining (j + 1) }, gate) else none
  | .returned => none

/-- One step of passenger thread `k`. The last arrival runs the completion function, which
prints the completion line and calls `gate->release()`; the barrier then starts its next
phase and the waiting threads may leave. -/
def stepPassenger (r : GroupRun) (gate : BoardingGate) (k : Nat) :
    Option (GroupRun × BoardingGate) :=
  match r.passengers[k]? with
  | none => none
  | some p =>
    match p.pc with
    | .boarding =>
      some ({ r with passengers := r.setPc k p .sleeping,
                     log := r.log ++ [.passengerBoarding r.groupId p.passengerId gate.getId] },
            gate)
    | .sleeping =>
      some ({ r with passengers := r.setPc k p .arriving,
                     log := r.log ++ [.passengerFinished r.groupId p.passengerId gate.getId] },
            gate)
    | .arriving =>
      some ({ r with passengers :=
                       r.setPc k p
                         (if r.boardingBarrier.pending - 1 = 0 then .completing else .waiting),
                     boardingBarrier :=
                       { r.boardingBarrier with pending := r.boardingBarrier.pending - 1 },
                     log := r.log ++ [.passengerArrived p.passengerId] }, gate)
    | .completing =>
      some ({ r with passengers := r.setPc k p .done,
                     boardingBarrier :=
                       { r.boardingBarrier with pending := r.boardingBarrier.expected,
                                                phase := r.boardingBarrier.phase + 1 },
                     log := r.log ++ [.groupCompleted r.groupId gate.getId,
                                      .gateReleased gate.getId] },
            gate.release)
    | .waiting =>
      if 0 < r.boardingBarrier.phase then
        some ({ r with passengers := r.setPc k p .done }, gate)
      else none
    | .done => none

/-- One step of a `boardGroup` call on its gate; `none` when the chosen thread is blocked,
has ended or does not exist. -/
def step (r : GroupRun) (gate : BoardingGate) : GroupAction → Option (GroupRun × BoardingGate)
  | .main => r.stepMain gate
  | .passenger k => r.stepPassenger gate k

/-- Run a schedule; `none` as soon as it names a thread that cannot step. -/
def exec : GroupRun × BoardingGate → List GroupAction → Option (GroupRun × BoardingGate)
  | s, [] => some s
  | s, a :: sched =>
    match s.1.step s.2 a with
    | some s1 => exec s1 sched
    | none => none

/-- A bound on the number of steps the call can still take. -/
def measure (r : GroupRun) : Nat :=
  (r.passengers.map (fun p => p.pc.weight)).sum +
    match r.pc with
    | .start => 6 * (r.groupSize).toNat + r.passengers.length + 4
    | .acquiring => 6 * (r.groupSize).toNat + r.passengers.length + 3
    | .spawning i => 6 * (r.groupSize + 1 - i).toNat + r.passengers.length + 2
    | .joining j => r.passengers.length - j + 1
    | .returned => 0

end GroupRun

/-- A complete run of `boardGroup(groupId, groupSize, gate)` under a schedule: the final state
and gate when the schedule can be followed and ends with the call returned. -/
def boardGroup (groupId groupSize : Int) (gate : BoardingGate) (sched : List GroupAction) :
    Option (GroupRun × BoardingGate) :=
  match GroupRun.exec (GroupRun.init groupId groupSize, gate) sched with
  | some s => if s.1.pc = .returned then some s else none
  | none => none

namespace GroupRun

/-- The call is between `gate->acquire()` returning and its `gate->release()`. -/
def holdsGate (r : GroupRun) : Bool :=
  r.log.any Event.isAcquire && !r.log.any Event.isRelease

end GroupRun

/-! ## The interleaved system: driver thread, pool and running groups -/

/-- A running `boardGroup` call and the index in the pool of the gate it was given. -/
structure GroupThread where
  gate : Nat
  run : GroupRun
deriving DecidableEq, Repr

/-- Where the driver thread stands in its gate search (`while (!gateAssigned)` over
`for (auto& gate : gates)`, the same in both simulations). -/
inductive DriverPc where
  /-- About to call `try_acquire()` on the gate at index `j` of the pool. -/
  | scanning (j : Nat)
  /-- After `try_acquire()` returned true on gate `j`, before `gate->release()`. -/
  | probed (j : Nat)
deriving DecidableEq, Repr

/-- The shared pool, the driver thread and the `boardGroup` calls started so far. In
`automatedSimulation` each call is a detached thread; in `manualSimulation` it runs on the
driver thread, which makes no probe before the call returns: one of the interleavings the
machine allows. -/
structure System where
  gates : List BoardingGate
  driver : DriverPc
  groups : List GroupThread
deriving DecidableEq, Repr

/-- The threads of the whole program and what the scheduler lets them do. -/
inductive SysAction where
  /-- The driver calls `try_acquire()` on the next gate of its pass, or, the pass being over
  without a gate, sleeps and starts a new pass. -/
  | driverTry
  /-- The driver calls `gate->release()` on the gate it probed and starts
  `boardGroup(groupId, size, gate)`. -/
  | driverRelease (groupId size : Int)
  /-- A thread of the `k`-th started `boardGroup` call takes a step. -/
  | group (k : Nat) (a : GroupAction)
deriving DecidableEq, Repr

namespace System

/-- Start of a simulation on a pool: the driver is at the first gate, no group runs. -/
def init (gates : List BoardingGate) : System := ⟨gates, .scanning 0, []⟩

/-- One step of the interleaved system; `none` when the chosen thread cannot step. -/
def step (s : System) : SysAction → Option System
  | .driverTry =>
    match s.driver with
    | .scanning j =>
      match s.gates[j]? with
      | none => some { s with driver := .scanning 0 }
      | some gate =>
        if gate.try_acquire.1 then
          some { s with gates := s.gates.set j gate.try_acquire.2, driver := .probed j }
        else some { s with driver := .scanning (j + 1) }
    | .probed _ => none
  | .driverRelease groupId size =>
    match s.driver with
    | .probed j =>
      match s.gates[j]? with
      | none => none
      | some gate =>
        some { gates := s.gates.set j gate.release, driver := .scanning 0,
               groups := s.groups ++ [⟨j, GroupRun.init groupId size⟩] }
    | .scanning _ => none
  | .group k a =>
    match s.groups[k]? with
    | none => none
    | some t =>
      match s.gates[t.gate]? with
      | none => none
      | some gate =>
        match t.run.step gate a with
        | none => none
        | some s1 =>
          some { s with gates := s.gates.set t.gate s1.2,
                        groups := s.groups.set k ⟨t.gate, s1.1⟩ }

/-- Run an interleaving; `none` as soon as it names a thread that cannot step. -/
def exec : System → List SysAction → Option System
  | s, [] => some s
  | s, a :: acts =>
    match s.step a with
    | some s1 => exec s1 acts
    | none => none

/-- The number of groups holding gate `j`. -/
def groupHolders (s : System) (j : Nat) : Nat :=
  s.groups.countP (fun t => t.gate == j && t.run.holdsGate)

/-- The number of holders of gate `j`: the driver while it probes it, and the groups between
their acquire and their release. -/
def holders (s : System) (j : Nat) : Nat :=
  (if s.driver = .probed j then 1 else 0) + s.groupHolders j

end System

/-- The cohort size an action hands to `boardGroup`, if it starts one. -/
def SysAction.cohortSize : SysAction → Option Int
  | .driverRelease _ size => some size
  | _ => none

/-- A sample interleaving on the pool of `main`: the driver probes gate 1 and starts group 1
(one passenger) on it, group 1 acquires the gate, the driver finds gate 1 held, probes gate 2
and starts group 2 (three passengers) on it, group 1 starts its passenger, which prints its
first line, and group 2 prints its first line. -/
def sampleInterleaving : List SysAction :=
  [.driverTry, .driverRelease 1 1, .group 0 .main, .group 0 .main, .driverTry, .driverTry,
    .driverRelease 2 3, .group 0 .main, .group 0 (.passenger 0), .group 1 .main]

/-- The state `sampleInterleaving` leads to. -/
def sampleInterleavingEnd : System :=
  { gates := [⟨1, 0⟩, ⟨2, 1⟩, ⟨3, 1⟩]
    driver := .scanning 0
    groups :=
      [{ gate := 0
         run :=
           { groupId := 1, groupSize := 1, pc := .spawning 2
             passengers := [⟨1, .sleeping⟩]
             boardingBarrier := ⟨1, 1, 0⟩
             log := [.groupStarted 1 1, .gateAcquired 1, .passengerSpawned 1,
               .passengerBoarding 1 1 1] } },
       { gate := 1
         run :=
           { groupId := 2, groupSize := 3, pc := .acquiring, passengers := []
             boardingBarrier := ⟨3, 3, 0⟩
             log := [.groupStarted 2 2] } }] }

/-! ## manualSimulation, one group at a time -/

/-- One line of standard input, as far as `manualSimulation` looks at it. `parsed` is what
`istringstream(input) >> n` does with the line: `none` when the line is empty or white space
only (the extraction stops before it writes, `n` keeps its value), else `some v` with `v` the
value written to `n` (the number the line starts with, 0 when it starts with none). `isExit`
says whether the line is `exit`, `EXIT` or `Exit`. -/
structure Line where
  parsed : Option Int
  isExit : Bool
deriving DecidableEq, Repr

/-- The empty line. -/
def Line.blank : Line := ⟨none, false⟩

/-- The stream `cin` and the local string `input` of `manualSimulation`: the lines not read yet,
whether the input ends with a newline, whether the stream is still good, and the text now in
`input`. -/
structure Console where
  lines : List Line
  finalNewline : Bool
  good : Bool
  input : Line
deriving DecidableEq, Repr

namespace Console

/-- Entry of `manualSimulation` on a fresh stream: `input` is empty. -/
def start (lines : List Line) (finalNewline : Bool) : Console :=
  ⟨lines, finalNewline, true, Line.blank⟩

/-- The call `getline(cin, input)`. On a stream that is no longer good nothing is read and
`input` keeps its text. On a good stream `input` is overwritten: with the next line, or, at the
end of the input, with the empty string, the stream then failing. A last line that is not
followed by a newline is read in full and leaves the stream at its end, no longer good. -/
def getline (c : Console) : Console :=
  if c.good then
    match c.lines with
    | [] => { c with good := false, input := Line.blank }
    | [l] => { c with lines := [], good := c.finalNewline, input := l }
    | l :: rest => { c with lines := rest, input := l }
  else c

/-- The statement `istringstream(input) >> n`: the new value of `n`. -/
def extract (c : Console) (n : Int) : Int :=
  match c.input.parsed with
  | some v => v
  | none => n

end Console

/-- The loop `while (n <= 0) { getline(cin, input); istringstream(input) >> n; }` of
`manualSimulation` (for `groupCount` and for `size`), `fuel` rounds at most: the value of `n`
on leaving the loop and the console then. `none` when the loop has not ended after `fuel`
rounds. -/
def promptLoop : Nat → Console → Int → Option (Int × Console)
  | 0, c, n => if n ≤ 0 then none else some (n, c)
  | fuel + 1, c, n =>
    if n ≤ 0 then promptLoop fuel c.getline (c.getline.extract n) else some (n, c)

/-- Reading one number in `manualSimulation`: `int n = 0; getline(cin, input);
istringstream(input) >> n;` followed by the loop `while (n <= 0)`. -/
def readPositive (fuel : Nat) (c : Console) : Option (Int × Console) :=
  promptLoop fuel c.getline (c.getline.extract 0)

/-- The loop `for (int i = 0; i < groupCount; ++i)` of `manualSimulation` filling
`groupSizes`, with `k` rounds to go. -/
def readSizes (fuel : Nat) : Nat → Console → Option (List Int × Console)
  | 0, c => some ([], c)
  | k + 1, c =>
    match readPositive fuel c with
    | none => none
    | some (size, c1) =>
      match readSizes fuel k c1 with
      | none => none
      | some (sizes, c2) => some (size :: sizes, c2)

/-- The input part of `manualSimulation`: `groupCount`, then `groupSizes`; every prompt loop
is given `fuel` rounds. -/
def manualInput (fuel : Nat) (c : Console) : Option (List Int × Console) :=
  match readPositive fuel c with
  | none => none
  | some (groupCount, c1) => readSizes fuel groupCount.toNat c1

/-- The loop `while (!assignedGate)` of `manualSimulation` run alone, `fuel` passes at most:
the index of the assigned gate, the number of `sleep_for(100ms)` taken, and the pool. -/
def manualFindGate : Nat → List BoardingGate → Option (Nat × Nat × List BoardingGate)
  | 0, _ => none
  | fuel + 1, gates =>
    match manualScanPass gates with
    | (some a, gates1) => some (a, 0, gates1)
    | (none, gates1) =>
      match manualFindGate fuel gates1 with
      | some (a, sleeps, gates2) => some (a, sleeps + 1, gates2)
      | none => none

/-- What the user and the scheduler supply for one group of `manualSimulation`: its size, the
interleaving of its threads, and whether `exit` is typed after it. -/
structure ManualInput where
  size : Int
  sched : List GroupAction
  typedExit : Bool
deriving DecidableEq, Repr

/-- What happened to one group of `manualSimulation`. -/
structure ManualGroup where
  groupId : Int
  assignedGate : Nat
  sleeps : Nat
  run : GroupRun
  gatesAfter : List BoardingGate
deriving DecidableEq, Repr

/-- The boarding loop of `manualSimulation` from group `groupId` on: gate search, then
`boardGroup` on the calling thread, then the prompt. `none` when a gate search finds nothing
within `fuel` passes or a schedule does not bring `boardGroup` to its return. -/
def manualSimulation (fuel : Nat) :
    List BoardingGate → Int → List ManualInput → Option (List ManualGroup × List BoardingGate)
  | gates, _, [] => some ([], gates)
  | gates, groupId, inp :: rest =>
    match manualFindGate fuel gates with
    | none => none
    | some (a, sleeps, gates1) =>
      match gates1[a]? with
      | none => none
      | some gate =>
        match boardGroup groupId inp.size gate inp.sched with
        | none => none
        | some s =>
          if inp.typedExit then
            some ([⟨groupId, a, sleeps, s.1, gates1.set a s.2⟩], gates1.set a s.2)
          else
            match manualSimulation fuel (gates1.set a s.2) (groupId + 1) rest with
            | none => none
            | some (recs, gates2) =>
              some (⟨groupId, a, sleeps, s.1, gates1.set a s.2⟩ :: recs, gates2)

/-- What the boarding loop of `manualSimulation` is run on: group `k` (counted from 0) has the
size read into `groupSizes`, its threads are interleaved as `sched k` says, and the answer to
the prompt after it is the next `getline(cin, input)`. -/
def manualInputsFrom : Nat → List Int → Console → (Nat → List GroupAction) → List ManualInput
  | _, [], _, _ => []
  | k, size :: rest, c, sched =>
    ⟨size, sched k, c.getline.input.isExit⟩ :: manualInputsFrom (k + 1) rest c.getline sched

/-- The whole of `manualSimulation(gates)`: the input part, then the boarding loop on the
sizes it has collected. -/
def manualSimulationOnInput (fuel : Nat) (gates : List BoardingGate) (c : Console)
    (sched : Nat → List GroupAction) : Option (List ManualGroup × List BoardingGate) :=
  match manualInput fuel c with
  | none => none
  | some (groupSizes, c1) =>
    manualSimulation fuel gates 1 (manualInputsFrom 0 groupSizes c1 sched)

/-- A sample input of `manualSimulation`: the lines `0`, `2`, an empty line and `3`, the last
one without a newline after it. -/
def sampleConsole : Console :=
  Console.start [⟨some 0, false⟩, ⟨some 2, false⟩, Line.blank, ⟨some 3, false⟩] false

/-- The console after the input part has run on `sampleConsole`. -/
def sampleConsoleEnd : Console := ⟨[], false, false, ⟨some 3, false⟩⟩

/-- A schedule for a group of three passengers, each passenger running to the barrier in
turn. -/
def sampleSchedule : List GroupAction :=
  [.main, .main, .main, .main, .main, .main, .passenger 0, .passenger 0, .passenger 0,
    .passenger 1, .passenger 1, .passenger 1, .passenger 2, .passenger 2, .passenger 2,
    .passenger 2, .passenger 0, .main, .passenger 1, .main, .main, .main]

/-! ## automatedSimulation as a machine -/

/-- The state of a call `automatedSimulation(gates, groupSizes)`: the pool, the driver and the
groups started, and the loop variable `groupId`. -/
structure AutomatedRun where
  sys : System
  groupId : Nat
deriving DecidableEq, Repr

/-- The threads of an automated simulation: the driver (the caller of `automatedSimulation`)
and the threads of the groups it has started. -/
inductive AutomatedAction where
  | driver
  | group (k : Nat) (a : GroupAction)
deriving DecidableEq, Repr

namespace AutomatedRun

/-- One step of an automated simulation. The driver, while `groupId <= groupSizes.size()`,
takes `size = groupSizes[groupId - 1]` and goes on with its gate search; when the search has
probed a gate it releases it, starts `boardGroup(groupId, size, gate)` and moves to the next
`groupId`. After the last group the driver only sleeps and returns. -/
def step (groupSizes : List Int) (s : AutomatedRun) : AutomatedAction → Option AutomatedRun
  | .driver =>
    match groupSizes[s.groupId - 1]? with
    | none => none
    | some size =>
      match s.sys.driver with
      | .scanning _ =>
        match s.sys.step .driverTry with
        | some sys1 => some ⟨sys1, s.groupId⟩
        | none => none
      | .probed _ =>
        match s.sys.step (.driverRelease s.groupId size) with
        | some sys1 => some ⟨sys1, s.groupId + 1⟩
        | none => none
  | .group k a =>
    match s.sys.step (.group k a) with
    | some sys1 => some ⟨sys1, s.groupId⟩
    | none => none

/-- Run an interleaving; `none` as soon as it names a thread that cannot step. -/
def exec (groupSizes : List Int) : AutomatedRun → List AutomatedAction → Option AutomatedRun
  | s, [] => some s
  | s, a :: acts =>
    match s.step groupSizes a with
    | some s1 => exec groupSizes s1 acts
    | none => none

end AutomatedRun

/-- The call `automatedSimulation(gates, groupSizes)` along an interleaving of the driver and
the groups it starts: `groupId` starts at 1, no group runs yet. -/
def automatedSimulation (gates : List BoardingGate) (groupSizes : List Int)
    (acts : List AutomatedAction) : Option AutomatedRun :=
  AutomatedRun.exec groupSizes ⟨System.init gates, 1⟩ acts

/-! ## Invariants of a boardGroup call -/

/-- The passenger id of a thread start, for the other events nothing. -/
def Event.spawnId : Event → Option Int
  | .passengerSpawned i => some i
  | _ => none

/-- The thread is about to run the completion function. -/
def PassengerPc.isCompleting : PassengerPc → Bool
  | .completing => true
  | _ => false

/-- The thread has ended. -/
def PassengerPc.isDone : PassengerPc → Bool
  | .done => true
  | _ => false

/-- The caller is past `gate->acquire()`. -/
def GroupPc.acquired : GroupPc → Bool
  | .start => false
  | .acquiring => false
  | _ => true

/-- The log `l` holds exactly `n` barrier arrivals and exactly `n` `finished boarding` lines. -/
def Event.allBoarded (n : Int) (l : List Event) : Prop :=
  ((l.countP (Event.isArrival fun _ => true) : Nat) : Int) = n ∧
  ((l.countP (Event.isFinished fun _ => true) : Nat) : Int) = n

namespace GroupRun

/-- The number of passenger threads that have arrived at the barrier. -/
def arrivals (r : GroupRun) : Nat := r.passengers.countP (fun p => p.pc.hasArrived)

/-- What the position of the caller says about `passengers`. -/
def pcInv (r : GroupRun) : Prop :=
  match r.pc with
  | .start => r.passengers = []
  | .acquiring => r.passengers = []
  | .spawning i => i = (r.passengers.length : Int) + 1
  | .joining j =>
    (r.passengers.length : Int) = r.groupSize ∧
      ∀ (k : Nat) (p : Passenger), k < j → r.passengers[k]? = some p → p.pc = .done
  | .returned =>
    (r.passengers.length : Int) = r.groupSize ∧ ∀ p ∈ r.passengers, p.pc = .done

/-- The invariant of a `boardGroup` call with a cohort of at least one. -/
structure Inv (r : GroupRun) : Prop where
  size_pos : 1 ≤ r.groupSize
  expected_eq : r.boardingBarrier.expected = r.groupSize
  len_le : (r.passengers.length : Int) ≤ r.groupSize
  ids : ∀ (k : Nat) (p : Passenger), r.passengers[k]? = some p → p.passengerId = (k : Int) + 1
  pcs : r.pcInv
  phase_le : r.boardingBarrier.phase ≤ 1
  pending_eq : r.boardingBarrier.phase = 0 →
    r.boardingBarrier.pending = r.groupSize - (r.arrivals : Int)
  completing_eq : r.passengers.countP (fun p => p.pc.isCompleting) =
    if r.boardingBarrier.phase = 0 ∧ (r.arrivals : Int) = r.groupSize then 1 else 0
  done_phase : ∀ p ∈ r.passengers, p.pc = .done → r.boardingBarrier.phase = 1
  phase_arrived : r.boardingBarrier.phase = 1 →
    r.arrivals = r.passengers.length ∧ (r.passengers.length : Int) = r.groupSize
  log_arrived : ∀ q : Int → Bool, r.log.countP (Event.isArrival q) =
    r.passengers.countP (fun p => q p.passengerId && p.pc.hasArrived)
  log_finished : ∀ q : Int → Bool, r.log.countP (Event.isFinished q) =
    r.passengers.countP (fun p => q p.passengerId && p.pc.hasFinished)
  log_release : r.log.countP Event.isRelease = r.boardingBarrier.phase
  log_acquire : r.log.countP Event.isAcquire = if r.pc.acquired then 1 else 0
  log_spawn : r.log.filterMap Event.spawnId = r.passengers.map (fun p => p.passengerId)
  log_order : ∀ (i : Nat) (e : Event), r.log[i]? = some e → e.isRelease = true →
    Event.allBoarded r.groupSize (r.log.take i)

end GroupRun

/-- The three ways a step of `boardGroup` can touch its gate: not at all, by acquiring it, or by
releasing it. -/
inductive GateEffect (r r1 : GroupRun) (gate gate1 : BoardingGate) : Prop where
  | quiet (hg : gate1 = gate) (hh : r1.holdsGate = r.holdsGate)
  | acquire (h0 : r.holdsGate = false) (h1 : r1.holdsGate = true)
      (hfree : 0 < gate.gateSemaphore)
      (hg : gate1 = { gate with gateSemaphore := gate.gateSemaphore - 1 })
  | release (h0 : r.holdsGate = true) (h1 : r1.holdsGate = false) (hg : gate1 = gate.release)

/-- The gate of an isolated `boardGroup` call: its counter is 0 while the call holds it and 1
otherwise. -/
def GroupRun.gateInv (r : GroupRun) (gate : BoardingGate) : Prop :=
  gate.gateSemaphore = if r.holdsGate then 0 else 1

/-- The invariant of the interleaved system: every started call keeps its own invariant, and
for every gate the counter and the number of its holders add up to one. -/
structure System.Inv (s : System) : Prop where
  groups_inv : ∀ t ∈ s.groups, t.run.Inv
  one_holder : ∀ (j : Nat) (g : BoardingGate), s.gates[j]? = some g →
    g.gateSemaphore + s.holders j = 1

/-- The system state is reached from a pool of free gates by an interleaving in which every
`boardGroup` call is started with a cohort size of one or more. -/
def System.Reachable (sys : System) : Prop :=
  ∃ (gates : List BoardingGate) (acts : List SysAction),
    (∀ g ∈ gates, g.gateSemaphore = 1) ∧
    (∀ a ∈ acts, ∀ size, a.cohortSize = some size → 1 ≤ size) ∧
    System.exec (System.init gates) acts = some sys

/-! ## Values of the thread-state predicates -/

@[simp]
theorem PassengerPc.hasArrived_boarding : PassengerPc.boarding.hasArrived = false := rfl

@[simp]
theorem PassengerPc.hasArrived_sleeping : PassengerPc.sleeping.hasArrived = false := rfl

@[simp]
theorem PassengerPc.hasArrived_arriving : PassengerPc.arriving.hasArrived = false := rfl

@[simp]
theorem PassengerPc.hasArrived_completing : PassengerPc.completing.hasArrived = true := rfl

@[simp]
theorem PassengerPc.hasArrived_waiting : PassengerPc.waiting.hasArrived = true := rfl

@[simp]
theorem PassengerPc.hasArrived_done : PassengerPc.done.hasArrived = true := rfl

@[simp]
theorem PassengerPc.hasFinished_boarding : PassengerPc.boarding.hasFinished = false := rfl

@[simp]
theorem PassengerPc.hasFinished_sleeping : PassengerPc.sleeping.hasFinished = false := rfl

@[simp]
theorem PassengerPc.hasFinished_arriving : PassengerPc.arriving.hasFinished = true := rfl

@[simp]
theorem PassengerPc.hasFinished_completing : PassengerPc.completing.hasFinished = true := rfl

@[simp]
theorem PassengerPc.hasFinished_waiting : PassengerPc.waiting.hasFinished = true := rfl

@[simp]
theorem PassengerPc.hasFinished_done : PassengerPc.done.hasFinished = true := rfl

@[simp]
theorem PassengerPc.isCompleting_boarding : PassengerPc.boarding.isCompleting = false := rfl

@[simp]
theorem PassengerPc.isCompleting_sleeping : PassengerPc.sleeping.isCompleting = false := rfl

@[simp]
theorem PassengerPc.isCompleting_arriving : PassengerPc.arriving.isCompleting = false := rfl

@[simp]
theorem PassengerPc.isCompleting_completing : PassengerPc.completing.isCompleting = true := rfl

@[simp]
theorem PassengerPc.isCompleting_waiting : PassengerPc.waiting.isCompleting = false := rfl

@[simp]
theorem PassengerPc.isCompleting_done : PassengerPc.done.isCompleting = false := rfl

@[simp]
theorem PassengerPc.weight_boarding : PassengerPc.boarding.weight = 4 := rfl

@[simp]
theorem PassengerPc.weight_sleeping : PassengerPc.sleeping.weight = 3 := rfl

@[simp]
theorem PassengerPc.weight_arriving : PassengerPc.arriving.weight = 2 := rfl

@[simp]
theorem PassengerPc.weight_completing : PassengerPc.completing.weight = 1 := rfl

@[simp]
theorem PassengerPc.weight_waiting : PassengerPc.waiting.weight = 1 := rfl

@[simp]
theorem PassengerPc.weight_done : PassengerPc.done.weight = 0 := rfl

/-! ## Gates and gate search -/

theorem countP_set_add {α : Type} (P : α → Bool) :
    ∀ (l : List α) (k : Nat) (x y : α), l[k]? = some x →
      (l.set k y).countP P + (if P x then 1 else 0) = l.countP P + (if P y then 1 else 0) := by
  intro l
  induction l with
  | nil => intro k x y h; simp at h
  | cons a l ih =>
    intro k x y h
    cases k with
    | zero =>
      simp only [List.getElem?_cons_zero, Option.some.injEq] at h
      subst h
      simp only [List.set_cons_zero, List.countP_cons]
      omega
    | succ k =>
      simp only [List.getElem?_cons_succ] at h
      have := ih k x y h
      simp only [List.set_cons_succ, List.countP_cons]
      omega

theorem sum_map_set_add {α : Type} (f : α → Nat) :
    ∀ (l : List α) (k : Nat) (x y : α), l[k]? = some x →
      ((l.set k y).map f).sum + f x = (l.map f).sum + f y := by
  intro l
  induction l with
  | nil => intro k x y h; simp at h
  | cons a l ih =>
    intro k x y h
    cases k with
    | zero =>
      simp only [List.getElem?_cons_zero, Option.some.injEq] at h
      subst h
      simp only [List.set_cons_zero, List.map_cons, List.sum_cons]
      omega
    | succ k =>
      simp only [List.getElem?_cons_succ] at h
      have := ih k x y h
      simp only [List.set_cons_succ, List.map_cons, List.sum_cons]
      omega

theorem GroupRun.Inv.atEntry (groupId groupSize : Int) (h : 1 ≤ groupSize) :
    (GroupRun.init groupId groupSize).Inv := by
  have h0 : ¬ (0 = groupSize) := by omega
  constructor <;>
    simp [GroupRun.init, GroupRun.pcInv, GroupRun.arrivals, GroupPc.acquired, h, h0]
  omega


theorem BoardingGate.try_acquire_free (g : BoardingGate) (h : g.isFree) :
    g.try_acquire = (true, { g with gateSemaphore := g.gateSemaphore - 1 }) := by
  unfold BoardingGate.isFree at h
  simp [BoardingGate.try_acquire, h]

theorem BoardingGate.try_acquire_held (g : BoardingGate) (h : g.isHeld) :
    g.try_acquire = (false, g) := by
  unfold BoardingGate.isHeld at h
  simp [BoardingGate.try_acquire, h]

theorem BoardingGate.release_try_acquire (g : BoardingGate) (h : g.isFree) :
    g.try_acquire.2.release = g := by
  unfold BoardingGate.isFree at h
  rw [BoardingGate.try_acquire_free g h]
  cases g with
  | mk id c =>
    simp only [BoardingGate.release, BoardingGate.mk.injEq, true_and]
    simp only at h
    omega

theorem BoardingGate.not_free_iff_held (g : BoardingGate) : ¬ g.isFree ↔ g.isHeld := by
  unfold BoardingGate.isFree BoardingGate.isHeld
  omega

/-- C4: on a gate whose counter is in the range of the semaphore, `try_acquire` returns true
exactly when the gate was free; it then leaves the gate held (same id); on a held gate it
returns false and the gate is unchanged. -/
theorem try_acquire_iff_free (g : BoardingGate) (hw : g.wellFormed) :
    (g.try_acquire.1 = true ↔ g.isFree) ∧
    (g.isFree → g.try_acquire.1 = true ∧ g.try_acquire.2.isHeld ∧
      g.try_acquire.2.id = g.id) ∧
    (g.isHeld → g.try_acquire.1 = false ∧ g.try_acquire.2 = g) := by
  unfold BoardingGate.wellFormed at hw
  refine ⟨?_, ?_, ?_⟩
  · by_cases h : g.isFree
    · simp [BoardingGate.try_acquire_free g h, h]
    · have h1 := (BoardingGate.not_free_iff_held g).1 h
      simp [BoardingGate.try_acquire_held g h1, h]
  · intro h
    rw [BoardingGate.try_acquire_free g h]
    unfold BoardingGate.isFree at h
    refine ⟨rfl, ?_, rfl⟩
    simp only [BoardingGate.isHeld]
    omega
  · intro h
    rw [BoardingGate.try_acquire_held g h]
    exact ⟨rfl, rfl⟩

theorem try_acquire_iff_free_witness :
    (BoardingGate.new 1).wellFormed ∧
    ((BoardingGate.new 1).try_acquire.1 = true ↔ (BoardingGate.new 1).isFree) ∧
    ((BoardingGate.new 1).isFree → (BoardingGate.new 1).try_acquire.1 = true ∧
      (BoardingGate.new 1).try_acquire.2.isHeld ∧
      (BoardingGate.new 1).try_acquire.2.id = (BoardingGate.new 1).id) ∧
    ((BoardingGate.new 1).isHeld → (BoardingGate.new 1).try_acquire.1 = false ∧
      (BoardingGate.new 1).try_acquire.2 = BoardingGate.new 1) :=
  ⟨by decide, try_acquire_iff_free (BoardingGate.new 1) (by decide)⟩

theorem automatedScanPass_eq (gates : List BoardingGate) :
    automatedScanPass gates =
      ((manualScanPass gates).1.isSome, (manualScanPass gates).1, (manualScanPass gates).2) := by
  induction gates with
  | nil => rfl
  | cons g rest ih =>
    by_cases h : g.try_acquire.1 = true
    · simp [automatedScanPass, manualScanPass, h]
    · simp [automatedScanPass, manualScanPass, h, ih]

theorem manualScanPass_all_held (gates : List BoardingGate) (h : ∀ g ∈ gates, g.isHeld) :
    manualScanPass gates = (none, gates) := by
  induction gates with
  | nil => rfl
  | cons g rest ih =>
    have hg : g.isHeld := h g (List.mem_cons_self _ _)
    have hr := ih (fun x hx => h x (List.mem_cons_of_mem _ hx))
    simp [manualScanPass, BoardingGate.try_acquire_held g hg, hr]

theorem manualScanPass_first_free (gates : List BoardingGate) (h : ∃ g ∈ gates, g.isFree) :
    ∃ i g, (manualScanPass gates).1 = some i ∧ gates[i]? = some g ∧ g.isFree ∧
      (∀ j g1, j < i → gates[j]? = some g1 → g1.isHeld) ∧ (manualScanPass gates).2 = gates := by
  induction gates with
  | nil => simp at h
  | cons g rest ih =>
    by_cases hg : g.isFree
    · refine ⟨0, g, ?_, by simp, hg, ?_, ?_⟩
      · simp [manualScanPass, BoardingGate.try_acquire_free g hg]
      · intro j g1 hj
        omega
      · have := BoardingGate.release_try_acquire g hg
        simp [manualScanPass, BoardingGate.try_acquire_free g hg] at this ⊢
        exact this
    · have hh := (BoardingGate.not_free_iff_held g).1 hg
      have hrest : ∃ x ∈ rest, x.isFree := by
        obtain ⟨x, hx, hxf⟩ := h
        rcases List.mem_cons.1 hx with rfl | hx
        · exact absurd hxf hg
        · exact ⟨x, hx, hxf⟩
      obtain ⟨i, x, hi, hget, hxf, hbefore, hpool⟩ := ih hrest
      refine ⟨i + 1, x, ?_, by simpa using hget, hxf, ?_, ?_⟩
      · simp [manualScanPass, BoardingGate.try_acquire_held g hh, hi]
      · intro j g1 hj hj1
        cases j with
        | zero =>
          simp at hj1
          exact hj1 ▸ hh
        | succ j =>
          exact hbefore j g1 (by omega) (by simpa using hj1)
      · simp [manualScanPass, BoardingGate.try_acquire_held g hh, hpool]

/-- C5: when some gate of the pool is free, one pass of the gate search of either driver selects
the first free gate in pool order (every gate before it is held) and leaves the pool exactly as
it was: the gate is handed over as a reference, not held. -/
theorem scan_pass_selects_first_free (gates : List BoardingGate)
    (h : ∃ g ∈ gates, g.isFree) :
    ∃ i g, gates[i]? = some g ∧ g.isFree ∧
      (∀ j g1, j < i → gates[j]? = some g1 → g1.isHeld) ∧
      manualScanPass gates = (some i, gates) ∧
      automatedScanPass gates = (true, some i, gates) := by
  obtain ⟨i, g, hi, hget, hf, hbefore, hpool⟩ := manualScanPass_first_free gates h
  refine ⟨i, g, hget, hf, hbefore, ?_, ?_⟩
  · exact Prod.ext hi hpool
  · rw [automatedScanPass_eq, hi, hpool]
    rfl

theorem scan_pass_selects_first_free_witness :
    (∃ g ∈ [⟨1, 0⟩, BoardingGate.new 2, BoardingGate.new 3], g.isFree) ∧
    ∃ i g, [⟨1, 0⟩, BoardingGate.new 2, BoardingGate.new 3][i]? = some g ∧ g.isFree ∧
      (∀ j g1, j < i → [⟨1, 0⟩, BoardingGate.new 2, BoardingGate.new 3][j]? = some g1 →
        g1.isHeld) ∧
      manualScanPass [⟨1, 0⟩, BoardingGate.new 2, BoardingGate.new 3] =
        (some i, [⟨1, 0⟩, BoardingGate.new 2, BoardingGate.new 3]) ∧
      automatedScanPass [⟨1, 0⟩, BoardingGate.new 2, BoardingGate.new 3] =
        (true, some i, [⟨1, 0⟩, BoardingGate.new 2, BoardingGate.new 3]) :=
  ⟨⟨BoardingGate.new 2, by simp, by decide⟩,
    scan_pass_selects_first_free _ ⟨BoardingGate.new 2, by simp, by decide⟩⟩

/-- C6: on a pool whose gates are all held, each of `k` repeated passes of the gate search of
either driver selects no gate (`assignedGate` stays null, `gateAssigned` stays false) and the
pool after the `k` passes is the pool before. -/
theorem scan_passes_all_held (gates : List BoardingGate) (k : Nat)
    (h : ∀ g ∈ gates, g.isHeld) :
    manualScanPasses k gates = (List.replicate k none, gates) ∧
    automatedScanPasses k gates = (List.replicate k false, gates) := by
  have hm := manualScanPass_all_held gates h
  have ha : automatedScanPass gates = (false, none, gates) := by
    rw [automatedScanPass_eq, hm]
    rfl
  induction k with
  | zero => exact ⟨rfl, rfl⟩
  | succ k ih =>
    constructor
    · simp only [manualScanPasses, hm, ih.1, List.replicate_succ]
    · simp only [automatedScanPasses, ha, ih.2, List.replicate_succ]

theorem scan_passes_all_held_witness :
    (∀ g ∈ [(⟨1, 0⟩ : BoardingGate), ⟨2, 0⟩, ⟨3, 0⟩], g.isHeld) ∧
    manualScanPasses 4 [⟨1, 0⟩, ⟨2, 0⟩, ⟨3, 0⟩] =
      (List.replicate 4 none, [⟨1, 0⟩, ⟨2, 0⟩, ⟨3, 0⟩]) ∧
    automatedScanPasses 4 [⟨1, 0⟩, ⟨2, 0⟩, ⟨3, 0⟩] =
      (List.replicate 4 false, [⟨1, 0⟩, ⟨2, 0⟩, ⟨3, 0⟩]) :=
  ⟨by decide, scan_passes_all_held _ 4 (by decide)⟩

/-- C8 refuted as stated: `release` on the free gate 1 (counter 1) returns a gate whose
counter is 2, above the range of the semaphore. -/
theorem release_on_free_gate_exceeds_one :
    (BoardingGate.new 1).isFree ∧ (BoardingGate.new 1).release = ⟨1, 2⟩ ∧
    ¬ (BoardingGate.new 1).release.gateSemaphore ≤ 1 := by
  decide

/-- C8 as amended: `release` turns a held gate into a free one, with counter 1 and the same
id; it does so by adding one to the counter, without any check of the state it finds. -/
theorem release_held_gate (g : BoardingGate) (h : g.isHeld) :
    g.release.isFree ∧ g.release.gateSemaphore = 1 ∧ g.release.id = g.id ∧
    g.release.gateSemaphore = g.gateSemaphore + 1 := by
  unfold BoardingGate.isHeld at h
  simp [BoardingGate.release, BoardingGate.isFree, h]

theorem release_held_gate_witness :
    (⟨2, 0⟩ : BoardingGate).isHeld ∧ (⟨2, 0⟩ : BoardingGate).release.isFree ∧
    (⟨2, 0⟩ : BoardingGate).release.gateSemaphore = 1 ∧
    (⟨2, 0⟩ : BoardingGate).release.id = 2 ∧
    (⟨2, 0⟩ : BoardingGate).release.gateSemaphore = 0 + 1 :=
  ⟨by decide, release_held_gate ⟨2, 0⟩ (by decide)⟩

/-! ## The invariant is kept by every step of boardGroup -/

theorem log_order_append (P : List Event → Prop) (log new : List Event)
    (hold : ∀ (i : Nat) (e : Event), log[i]? = some e → e.isRelease = true → P (log.take i))
    (hnew : ∀ (j : Nat) (e : Event), new[j]? = some e → e.isRelease = true →
      P (log ++ new.take j)) :
    ∀ (i : Nat) (e : Event), (log ++ new)[i]? = some e → e.isRelease = true →
      P ((log ++ new).take i) := by
  intro i e hi he
  by_cases hlt : i < log.length
  · rw [List.getElem?_append_left hlt] at hi
    rw [List.take_append_eq_append_take]
    have : i - log.length = 0 := by omega
    rw [this]
    simpa using hold i e hi he
  · rw [List.getElem?_append_right (by omega)] at hi
    rw [List.take_append_eq_append_take, List.take_of_length_le (by omega)]
    exact hnew _ e hi he

theorem log_order_append_quiet (n : Int) (log new : List Event)
    (hold : ∀ (i : Nat) (e : Event), log[i]? = some e → e.isRelease = true →
      Event.allBoarded n (log.take i))
    (hnew : ∀ e ∈ new, e.isRelease = false) :
    ∀ (i : Nat) (e : Event), (log ++ new)[i]? = some e → e.isRelease = true →
      Event.allBoarded n ((log ++ new).take i) := by
  apply log_order_append (Event.allBoarded n) log new hold
  intro j e hj he
  have hmem : e ∈ new := List.mem_iff_getElem?.2 ⟨j, hj⟩
  rw [hnew e hmem] at he
  exact absurd he (by simp)

theorem GroupRun.Inv.stepMain {r : GroupRun} {gate : BoardingGate}
    {s1 : GroupRun × BoardingGate} (h : r.Inv) (hs : r.stepMain gate = some s1) :
    s1.1.Inv := by
  have hp := h.pcs
  unfold GroupRun.stepMain at hs
  unfold GroupRun.pcInv at hp
  cases hpc : r.pc with
  | start =>
    simp only [hpc, Option.some.injEq] at hs hp
    subst hs
    exact
      { size_pos := h.size_pos, expected_eq := h.expected_eq, len_le := h.len_le, ids := h.ids
        pcs := by simpa [GroupRun.pcInv] using hp
        phase_le := h.phase_le, pending_eq := h.pending_eq, completing_eq := h.completing_eq
        done_phase := h.done_phase, phase_arrived := h.phase_arrived
        log_arrived := fun q => by simpa [Event.isArrival] using h.log_arrived q
        log_finished := fun q => by simpa [Event.isFinished] using h.log_finished q
        log_release := by simpa [Event.isRelease] using h.log_release
        log_acquire := by
          have := h.log_acquire
          simp only [hpc, GroupPc.acquired] at this
          simpa [Event.isAcquire, GroupPc.acquired] using this
        log_spawn := by simpa [Event.spawnId] using h.log_spawn
        log_order := by
          apply log_order_append_quiet _ _ _ h.log_order
          simp [Event.isRelease] }
  | acquiring =>
    simp only [hpc] at hs hp
    cases hacq : gate.acquire with
    | none => simp [hacq] at hs
    | some gate1 =>
      simp only [hacq, Option.some.injEq] at hs
      subst hs
      exact
        { size_pos := h.size_pos, expected_eq := h.expected_eq, len_le := h.len_le
          ids := h.ids
          pcs := by simp [GroupRun.pcInv, hp]
          phase_le := h.phase_le, pending_eq := h.pending_eq
          completing_eq := h.completing_eq
          done_phase := h.done_phase, phase_arrived := h.phase_arrived
          log_arrived := fun q => by simpa [Event.isArrival] using h.log_arrived q
          log_finished := fun q => by simpa [Event.isFinished] using h.log_finished q
          log_release := by simpa [Event.isRelease] using h.log_release
          log_acquire := by
            have := h.log_acquire
            simp only [hpc, GroupPc.acquired] at this
            simp [Event.isAcquire, GroupPc.acquired, this]
          log_spawn := by simpa [Event.spawnId] using h.log_spawn
          log_order := by
            apply log_order_append_quiet _ _ _ h.log_order
            simp [Event.isRelease] }
  | spawning i =>
    simp only [hpc] at hs hp
    have hacq := h.log_acquire
    simp only [hpc, GroupPc.acquired] at hacq
    by_cases hi : i ≤ r.groupSize
    · simp only [hi, if_true, Option.some.injEq] at hs
      subst hs
      have hlen := h.len_le
      have hph : r.boardingBarrier.phase ≠ 1 := by
        intro h1
        have := (h.phase_arrived h1).2
        omega
      exact
        { size_pos := h.size_pos, expected_eq := h.expected_eq
          len_le := by simp only [List.length_append, List.length_singleton]; omega
          ids := by
            intro k p hk
            by_cases hlt : k < r.passengers.length
            · rw [List.getElem?_append_left hlt] at hk
              exact h.ids k p hk
            · rw [List.getElem?_append_right (by omega)] at hk
              have hk0 : k - r.passengers.length = 0 := by
                by_contra hne
                have : (1 : Nat) ≤ k - r.passengers.length := by omega
                rw [List.getElem?_eq_none (by simpa using this)] at hk
                simp at hk
              rw [hk0] at hk
              simp only [List.getElem?_cons_zero, Option.some.injEq] at hk
              subst hk
              simp only
              omega
          pcs := by simp [GroupRun.pcInv, hp]
          phase_le := h.phase_le
          pending_eq := by
            simpa [GroupRun.arrivals, List.countP_append, PassengerPc.hasArrived] using
              h.pending_eq
          completing_eq := by
            simpa [GroupRun.arrivals, List.countP_append, PassengerPc.hasArrived,
              PassengerPc.isCompleting] using h.completing_eq
          done_phase := by
            intro p hp1 hd
            rcases List.mem_append.1 hp1 with hp1 | hp1
            · exact h.done_phase p hp1 hd
            · simp only [List.mem_singleton] at hp1
              subst hp1
              simp at hd
          phase_arrived := fun h1 => absurd h1 hph
          log_arrived := fun q => by
            simpa [Event.isArrival, List.countP_append, PassengerPc.hasArrived] using
              h.log_arrived q
          log_finished := fun q => by
            simpa [Event.isFinished, List.countP_append, PassengerPc.hasFinished] using
              h.log_finished q
          log_release := by simpa [Event.isRelease] using h.log_release
          log_acquire := by simpa [Event.isAcquire, GroupPc.acquired] using hacq
          log_spawn := by simp [Event.spawnId, List.filterMap_append, h.log_spawn]
          log_order := by
            apply log_order_append_quiet _ _ _ h.log_order
            simp [Event.isRelease] }
    · simp only [hi, if_false, Option.some.injEq] at hs
      subst hs
      have hlen := h.len_le
      exact
        { size_pos := h.size_pos, expected_eq := h.expected_eq, len_le := h.len_le
          ids := h.ids
          pcs := by
            simp only [GroupRun.pcInv]
            refine ⟨by omega, ?_⟩
            intro k p hk
            omega
          phase_le := h.phase_le, pending_eq := h.pending_eq
          completing_eq := h.completing_eq
          done_phase := h.done_phase, phase_arrived := h.phase_arrived
          log_arrived := h.log_arrived, log_finished := h.log_finished
          log_release := h.log_release
          log_acquire := by simpa [GroupPc.acquired] using hacq
          log_spawn := h.log_spawn, log_order := h.log_order }
  | joining j =>
    simp only [hpc] at hs hp
    have hacq := h.log_acquire
    simp only [hpc, GroupPc.acquired] at hacq
    cases hj : r.passengers[j]? with
    | none =>
      simp only [hj, Option.some.injEq] at hs
      subst hs
      exact
        { size_pos := h.size_pos, expected_eq := h.expected_eq, len_le := h.len_le
          ids := h.ids
          pcs := by
            simp only [GroupRun.pcInv]
            refine ⟨hp.1, ?_⟩
            intro p hmem
            obtain ⟨k, hk⟩ := List.mem_iff_getElem?.1 hmem
            have hklt : k < r.passengers.length := by
              obtain ⟨hlt, _⟩ := List.getElem?_eq_some.1 hk
              exact hlt
            have hjge : r.passengers.length ≤ j := by
              by_contra hne
              have : j < r.passengers.length := by omega
              rw [List.getElem?_eq_getElem this] at hj
              simp at hj
            exact hp.2 k p (by omega) hk
          phase_le := h.phase_le, pending_eq := h.pending_eq
          completing_eq := h.completing_eq
          done_phase := h.done_phase, phase_arrived := h.phase_arrived
          log_arrived := h.log_arrived, log_finished := h.log_finished
          log_release := h.log_release
          log_acquire := by simpa [GroupPc.acquired] using hacq
          log_spawn := h.log_spawn, log_order := h.log_order }
    | some p =>
      simp only [hj] at hs
      by_cases hd : p.pc = .done
      · simp only [hd, if_true, Option.some.injEq] at hs
        subst hs
        exact
          { size_pos := h.size_pos, expected_eq := h.expected_eq, len_le := h.len_le
            ids := h.ids
            pcs := by
              simp only [GroupRun.pcInv]
              refine ⟨hp.1, ?_⟩
              intro k p1 hk hk1
              by_cases hkj : k = j
              · subst hkj
                rw [hj] at hk1
                simp only [Option.some.injEq] at hk1
                subst hk1
                exact hd
              · exact hp.2 k p1 (by omega) hk1
            phase_le := h.phase_le, pending_eq := h.pending_eq
            completing_eq := h.completing_eq
            done_phase := h.done_phase, phase_arrived := h.phase_arrived
            log_arrived := h.log_arrived, log_finished := h.log_finished
            log_release := h.log_release
            log_acquire := by simpa [GroupPc.acquired] using hacq
            log_spawn := h.log_spawn, log_order := h.log_order }
      · simp [hd] at hs
  | returned => simp [hpc] at hs

theorem pcInv_set {r r1 : GroupRun} {k : Nat} {p p1 : Passenger}
    (hk : r.passengers[k]? = some p) (hnd : p.pc ≠ .done) (hp : r.pcInv)
    (hpc : r1.pc = r.pc) (hsize : r1.groupSize = r.groupSize)
    (hpass : r1.passengers = r.passengers.set k p1) : r1.pcInv := by
  unfold GroupRun.pcInv at hp ⊢
  rw [hpc, hsize, hpass]
  cases hrpc : r.pc with
  | start => simp only [hrpc] at hp; rw [hp] at hk; simp at hk
  | acquiring => simp only [hrpc] at hp; rw [hp] at hk; simp at hk
  | spawning i => simp only [hrpc] at hp; simpa using hp
  | joining j =>
    simp only [hrpc] at hp
    simp only [List.length_set]
    refine ⟨hp.1, ?_⟩
    intro k1 p2 hk1 hk2
    by_cases hkk : k = k1
    · subst hkk
      exact absurd (hp.2 k p hk1 hk) hnd
    · rw [List.getElem?_set_ne hkk] at hk2
      exact hp.2 k1 p2 hk1 hk2
  | returned =>
    simp only [hrpc] at hp
    exact absurd (hp.2 p (List.mem_iff_getElem?.2 ⟨k, hk⟩)) hnd

theorem ids_set {l : List Passenger} {k : Nat} {p p1 : Passenger}
    (hk : l[k]? = some p) (hid : p1.passengerId = p.passengerId)
    (hids : ∀ (k : Nat) (p : Passenger), l[k]? = some p → p.passengerId = (k : Int) + 1) :
    ∀ (k1 : Nat) (p2 : Passenger), (l.set k p1)[k1]? = some p2 →
      p2.passengerId = (k1 : Int) + 1 := by
  intro k1 p2 h2
  by_cases hkk : k = k1
  · subst hkk
    have hlt : k < l.length := (List.getElem?_eq_some.1 hk).1
    rw [List.getElem?_set_self hlt] at h2
    simp only [Option.some.injEq] at h2
    subst h2
    rw [hid]
    exact hids k p hk
  · rw [List.getElem?_set_ne hkk] at h2
    exact hids k1 p2 h2

theorem map_id_set {l : List Passenger} {k : Nat} {p p1 : Passenger}
    (hk : l[k]? = some p) (hid : p1.passengerId = p.passengerId) :
    (l.set k p1).map (fun p => p.passengerId) = l.map (fun p => p.passengerId) := by
  apply List.ext_getElem?
  intro n
  simp only [List.getElem?_map]
  by_cases hkk : k = n
  · subst hkk
    have hlt : k < l.length := (List.getElem?_eq_some.1 hk).1
    rw [List.getElem?_set_self hlt, hk]
    simp [hid]
  · rw [List.getElem?_set_ne hkk]

theorem map_id_setPc {l : List Passenger} {k : Nat} {p : Passenger}
    (hk : l[k]? = some p) (c : PassengerPc) :
    (l.set k { p with pc := c }).map (fun p => p.passengerId) =
      l.map (fun p => p.passengerId) :=
  map_id_set hk rfl

theorem GroupRun.Inv.acquired_of_passenger {r : GroupRun} (h : r.Inv) {k : Nat}
    {p : Passenger} (hk : r.passengers[k]? = some p) : r.pc.acquired = true := by
  have hp := h.pcs
  unfold GroupRun.pcInv at hp
  cases hpc : r.pc with
  | start => simp only [hpc] at hp; rw [hp] at hk; simp at hk
  | acquiring => simp only [hpc] at hp; rw [hp] at hk; simp at hk
  | spawning i => rfl
  | joining j => rfl
  | returned => rfl

theorem GroupRun.Inv.phase_zero_of_not_arrived {r : GroupRun} (h : r.Inv) {k : Nat}
    {p : Passenger} (hk : r.passengers[k]? = some p) (hna : p.pc.hasArrived = false) :
    r.boardingBarrier.phase = 0 ∧ (r.arrivals : Int) < r.groupSize := by
  have hmem : p ∈ r.passengers := List.mem_iff_getElem?.2 ⟨k, hk⟩
  have hlt : r.arrivals < r.passengers.length := by
    have hle : r.arrivals ≤ r.passengers.length := List.countP_le_length _
    rcases Nat.lt_or_ge r.arrivals r.passengers.length with h1 | h1
    · exact h1
    · have heq : r.arrivals = r.passengers.length := by omega
      have := (List.countP_eq_length.1 heq) p hmem
      simp [hna] at this
  have hlen := h.len_le
  have hle := h.phase_le
  constructor
  · by_contra h0
    have h1 : r.boardingBarrier.phase = 1 := by omega
    have := (h.phase_arrived h1).1
    omega
  · omega

theorem done_phase_set {l : List Passenger} {k : Nat} {p1 : Passenger} {ph : Nat}
    (hold : ∀ p ∈ l, p.pc = .done → ph = 1) (hnew : p1.pc = .done → ph = 1) :
    ∀ p ∈ l.set k p1, p.pc = .done → ph = 1 := by
  intro p hmem hd
  rcases List.mem_or_eq_of_mem_set hmem with h1 | h1
  · exact hold p h1 hd
  · subst h1
    exact hnew hd

theorem GroupRun.Inv.stepPassenger {r : GroupRun} {gate : BoardingGate} {k : Nat}
    {s1 : GroupRun × BoardingGate} (h : r.Inv) (hs : r.stepPassenger gate k = some s1) :
    s1.1.Inv := by
  unfold GroupRun.stepPassenger at hs
  cases hk : r.passengers[k]? with
  | none => simp [hk] at hs
  | some p =>
    simp only [hk] at hs
    have hacq0 := h.log_acquire
    rw [h.acquired_of_passenger hk] at hacq0
    have cnt := fun (P : Passenger → Bool) (c : PassengerPc) =>
      countP_set_add P r.passengers k p { p with pc := c } hk
    cases hp : p.pc with
    | boarding =>
      simp only [hp, Option.some.injEq] at hs
      subst hs
      have hA := cnt (fun p => p.pc.hasArrived) .sleeping
      have hC := cnt (fun p => p.pc.isCompleting) .sleeping
      simp [hp] at hA hC
      exact
        { size_pos := h.size_pos, expected_eq := h.expected_eq
          len_le := by simpa [GroupRun.setPc] using h.len_le
          ids := ids_set hk rfl h.ids
          pcs := pcInv_set hk (by simp [hp]) h.pcs rfl rfl rfl
          phase_le := h.phase_le
          pending_eq := by
            simp only [GroupRun.arrivals, GroupRun.setPc, hA]
            exact h.pending_eq
          completing_eq := by
            simp only [GroupRun.arrivals, GroupRun.setPc, hA, hC]
            exact h.completing_eq
          done_phase := done_phase_set h.done_phase (by simp)
          phase_arrived := by
            simp only [GroupRun.arrivals, GroupRun.setPc, hA, List.length_set]
            exact h.phase_arrived
          log_arrived := fun q => by
            have := cnt (fun p => q p.passengerId && p.pc.hasArrived) .sleeping
            simp [hp] at this
            simp only [GroupRun.setPc, this, List.countP_append]
            simpa [Event.isArrival] using h.log_arrived q
          log_finished := fun q => by
            have := cnt (fun p => q p.passengerId && p.pc.hasFinished) .sleeping
            simp [hp] at this
            simp only [GroupRun.setPc, this, List.countP_append]
            simpa [Event.isFinished] using h.log_finished q
          log_release := by simpa [Event.isRelease] using h.log_release
          log_acquire := by
            simpa [Event.isAcquire, h.acquired_of_passenger hk] using hacq0
          log_spawn := by
            show List.filterMap Event.spawnId (r.log ++ [_]) =
              List.map (fun p => p.passengerId) (r.passengers.set k _)
            rw [map_id_setPc hk, ← h.log_spawn]
            simp [Event.spawnId]
          log_order := by
            apply log_order_append_quiet _ _ _ h.log_order
            simp [Event.isRelease] }
    | sleeping =>
      simp only [hp, Option.some.injEq] at hs
      subst hs
      have hA := cnt (fun p => p.pc.hasArrived) .arriving
      have hC := cnt (fun p => p.pc.isCompleting) .arriving
      simp [hp] at hA hC
      exact
        { size_pos := h.size_pos, expected_eq := h.expected_eq
          len_le := by simpa [GroupRun.setPc] using h.len_le
          ids := ids_set hk rfl h.ids
          pcs := pcInv_set hk (by simp [hp]) h.pcs rfl rfl rfl
          phase_le := h.phase_le
          pending_eq := by
            simp only [GroupRun.arrivals, GroupRun.setPc, hA]
            exact h.pending_eq
          completing_eq := by
            simp only [GroupRun.arrivals, GroupRun.setPc, hA, hC]
            exact h.completing_eq
          done_phase := done_phase_set h.done_phase (by simp)
          phase_arrived := by
            simp only [GroupRun.arrivals, GroupRun.setPc, hA, List.length_set]
            exact h.phase_arrived
          log_arrived := fun q => by
            have := cnt (fun p => q p.passengerId && p.pc.hasArrived) .arriving
            simp [hp] at this
            simp only [GroupRun.setPc, this, List.countP_append]
            simpa [Event.isArrival] using h.log_arrived q
          log_finished := fun q => by
            have := cnt (fun p => q p.passengerId && p.pc.hasFinished) .arriving
            simp [hp] at this
            simp only [GroupRun.setPc, this, List.countP_append, h.log_finished q]
            simp [Event.isFinished, List.countP_cons]
          log_release := by simpa [Event.isRelease] using h.log_release
          log_acquire := by
            simpa [Event.isAcquire, h.acquired_of_passenger hk] using hacq0
          log_spawn := by
            show List.filterMap Event.spawnId (r.log ++ [_]) =
              List.map (fun p => p.passengerId) (r.passengers.set k _)
            rw [map_id_setPc hk, ← h.log_spawn]
            simp [Event.spawnId]
          log_order := by
            apply log_order_append_quiet _ _ _ h.log_order
            simp [Event.isRelease] }
    | arriving =>
      simp only [hp, Option.some.injEq] at hs
      subst hs
      obtain ⟨hph, hlt⟩ := h.phase_zero_of_not_arrived hk (by simp [hp])
      have hpend := h.pending_eq hph
      have hC0 := h.completing_eq
      have hne : ¬ ((r.arrivals : Int) = r.groupSize) := by omega
      simp only [hph, hne, and_false, if_false] at hC0
      by_cases hz : r.boardingBarrier.pending - 1 = 0
      · simp only [hz, if_true]
        have hA := cnt (fun p => p.pc.hasArrived) .completing
        have hC := cnt (fun p => p.pc.isCompleting) .completing
        simp [hp] at hA hC
        exact
          { size_pos := h.size_pos, expected_eq := h.expected_eq
            len_le := by simpa [GroupRun.setPc] using h.len_le
            ids := ids_set hk rfl h.ids
            pcs := pcInv_set hk (by simp [hp]) h.pcs rfl rfl rfl
            phase_le := h.phase_le
            pending_eq := by
              simp only [GroupRun.arrivals, GroupRun.setPc, hA]
              intro _
              simp only [GroupRun.arrivals] at hpend
              push_cast
              omega
            completing_eq := by
              simp only [GroupRun.arrivals, GroupRun.setPc, hA, hC, hC0]
              simp only [GroupRun.arrivals] at hpend
              have : ((List.countP (fun p => p.pc.hasArrived) r.passengers + 1 : Nat) : Int) =
                  r.groupSize := by push_cast; omega
              simp [hph, this]
            done_phase := done_phase_set h.done_phase (by simp)
            phase_arrived := by
              intro h1
              simp only [] at h1
              omega
            log_arrived := fun q => by
              have := cnt (fun p => q p.passengerId && p.pc.hasArrived) .completing
              simp [hp] at this
              simp only [GroupRun.setPc, this, List.countP_append, h.log_arrived q]
              simp [Event.isArrival, List.countP_cons]
            log_finished := fun q => by
              have := cnt (fun p => q p.passengerId && p.pc.hasFinished) .completing
              simp [hp] at this
              simp only [GroupRun.setPc, this, List.countP_append]
              simpa [Event.isFinished] using h.log_finished q
            log_release := by simpa [Event.isRelease] using h.log_release
            log_acquire := by
              simpa [Event.isAcquire, h.acquired_of_passenger hk] using hacq0
            log_spawn := by
              show List.filterMap Event.spawnId (r.log ++ [_]) =
                List.map (fun p => p.passengerId) (r.passengers.set k _)
              rw [map_id_setPc hk, ← h.log_spawn]
              simp [Event.spawnId]
            log_order := by
              apply log_order_append_quiet _ _ _ h.log_order
              simp [Event.isRelease] }
      · simp only [hz, if_false]
        have hA := cnt (fun p => p.pc.hasArrived) .waiting
        have hC := cnt (fun p => p.pc.isCompleting) .waiting
        simp [hp] at hA hC
        exact
          { size_pos := h.size_pos, expected_eq := h.expected_eq
            len_le := by simpa [GroupRun.setPc] using h.len_le
            ids := ids_set hk rfl h.ids
            pcs := pcInv_set hk (by simp [hp]) h.pcs rfl rfl rfl
            phase_le := h.phase_le
            pending_eq := by
              simp only [GroupRun.arrivals, GroupRun.setPc, hA]
              intro _
              simp only [GroupRun.arrivals] at hpend
              push_cast
              omega
            completing_eq := by
              simp only [GroupRun.arrivals, GroupRun.setPc, hA, hC, hC0]
              simp only [GroupRun.arrivals] at hpend
              rw [if_neg]
              rintro ⟨_, h2⟩
              push_cast at h2
              omega
            done_phase := done_phase_set h.done_phase (by simp)
            phase_arrived := by
              intro h1
              simp only [] at h1
              omega
            log_arrived := fun q => by
              have := cnt (fun p => q p.passengerId && p.pc.hasArrived) .waiting
              simp [hp] at this
              simp only [GroupRun.setPc, this, List.countP_append, h.log_arrived q]
              simp [Event.isArrival, List.countP_cons]
            log_finished := fun q => by
              have := cnt (fun p => q p.passengerId && p.pc.hasFinished) .waiting
              simp [hp] at this
              simp only [GroupRun.setPc, this, List.countP_append]
              simpa [Event.isFinished] using h.log_finished q
            log_release := by simpa [Event.isRelease] using h.log_release
            log_acquire := by
              simpa [Event.isAcquire, h.acquired_of_passenger hk] using hacq0
            log_spawn := by
              show List.filterMap Event.spawnId (r.log ++ [_]) =
                List.map (fun p => p.passengerId) (r.passengers.set k _)
              rw [map_id_setPc hk, ← h.log_spawn]
              simp [Event.spawnId]
            log_order := by
              apply log_order_append_quiet _ _ _ h.log_order
              simp [Event.isRelease] }
    | completing =>
      simp only [hp, Option.some.injEq] at hs
      subst hs
      have hmem : p ∈ r.passengers := List.mem_iff_getElem?.2 ⟨k, hk⟩
      have hpos : 0 < r.passengers.countP (fun p => p.pc.isCompleting) :=
        List.countP_pos_iff.2 ⟨p, hmem, by simp [hp]⟩
      have hC0 := h.completing_eq
      have hcond : r.boardingBarrier.phase = 0 ∧ (r.arrivals : Int) = r.groupSize := by
        by_contra hn
        rw [if_neg hn] at hC0
        omega
      rw [if_pos hcond] at hC0
      obtain ⟨hph, harr⟩ := hcond
      have hA := cnt (fun p => p.pc.hasArrived) .done
      have hC := cnt (fun p => p.pc.isCompleting) .done
      simp [hp] at hA hC
      have hlen := h.len_le
      have hale : r.arrivals ≤ r.passengers.length := List.countP_le_length _
      have hfin : r.passengers.countP (fun p => true && p.pc.hasFinished) =
          r.passengers.length := by
        have h1 : r.arrivals ≤ r.passengers.countP (fun p => true && p.pc.hasFinished) := by
          apply List.countP_mono_left
          intro x _ hx
          cases hx1 : x.pc <;> simp [hx1] at hx ⊢
        have h2 : r.passengers.countP (fun p => true && p.pc.hasFinished) ≤
            r.passengers.length := List.countP_le_length _
        omega
      have harr1 : r.passengers.countP (fun p => true && p.pc.hasArrived) = r.arrivals := by
        simp [GroupRun.arrivals]
      exact
        { size_pos := h.size_pos, expected_eq := h.expected_eq
          len_le := by simpa [GroupRun.setPc] using h.len_le
          ids := ids_set hk rfl h.ids
          pcs := pcInv_set hk (by simp [hp]) h.pcs rfl rfl rfl
          phase_le := by simp only []; omega
          pending_eq := by
            intro h1
            simp only [] at h1
            omega
          completing_eq := by
            simp only [GroupRun.arrivals, GroupRun.setPc, hA]
            rw [if_neg (by omega)]
            omega
          done_phase := by
            intro _ _ _
            simp only []
            omega
          phase_arrived := by
            intro _
            simp only [GroupRun.arrivals, GroupRun.setPc, hA, List.length_set]
            simp only [GroupRun.arrivals] at harr hale
            omega
          log_arrived := fun q => by
            have := cnt (fun p => q p.passengerId && p.pc.hasArrived) .done
            simp [hp] at this
            simp only [GroupRun.setPc, this, List.countP_append]
            simpa [Event.isArrival] using h.log_arrived q
          log_finished := fun q => by
            have := cnt (fun p => q p.passengerId && p.pc.hasFinished) .done
            simp [hp] at this
            simp only [GroupRun.setPc, this, List.countP_append]
            simpa [Event.isFinished] using h.log_finished q
          log_release := by
            simp only [List.countP_append, h.log_release]
            simp [Event.isRelease, List.countP_cons]
          log_acquire := by
            simpa [Event.isAcquire, h.acquired_of_passenger hk] using hacq0
          log_spawn := by
            show List.filterMap Event.spawnId (r.log ++ [_, _]) =
              List.map (fun p => p.passengerId) (r.passengers.set k _)
            rw [map_id_setPc hk, ← h.log_spawn]
            simp [Event.spawnId]
          log_order := by
            apply log_order_append (Event.allBoarded r.groupSize) _ _ h.log_order
            intro j e hj he
            have hj1 : j = 1 := by
              rcases j with _ | _ | j
              · simp at hj; subst hj; simp [Event.isRelease] at he
              · rfl
              · simp at hj
            subst hj1
            have h1 := h.log_arrived (fun _ => true)
            have h2 := h.log_finished (fun _ => true)
            rw [harr1] at h1
            rw [hfin] at h2
            simp only [Event.allBoarded, List.take_succ_cons, List.take_zero,
              List.countP_append, h1, h2]
            simp only [List.countP_cons, List.countP_nil, Event.isArrival, Event.isFinished]
            simp only [Bool.false_eq_true, if_false, Nat.add_zero]
            omega }
    | waiting =>
      simp only [hp] at hs
      by_cases hph : 0 < r.boardingBarrier.phase
      · simp only [hph, if_true, Option.some.injEq] at hs
        subst hs
        have hA := cnt (fun p => p.pc.hasArrived) .done
        have hC := cnt (fun p => p.pc.isCompleting) .done
        simp [hp] at hA hC
        have hle := h.phase_le
        exact
          { size_pos := h.size_pos, expected_eq := h.expected_eq
            len_le := by simpa [GroupRun.setPc] using h.len_le
            ids := ids_set hk rfl h.ids
            pcs := pcInv_set hk (by simp [hp]) h.pcs rfl rfl rfl
            phase_le := h.phase_le
            pending_eq := by
              simp only [GroupRun.arrivals, GroupRun.setPc, hA]
              exact h.pending_eq
            completing_eq := by
              simp only [GroupRun.arrivals, GroupRun.setPc, hA, hC]
              exact h.completing_eq
            done_phase :=
              done_phase_set h.done_phase (fun _ => show r.boardingBarrier.phase = 1 by omega)
            phase_arrived := by
              simp only [GroupRun.arrivals, GroupRun.setPc, hA, List.length_set]
              exact h.phase_arrived
            log_arrived := fun q => by
              have := cnt (fun p => q p.passengerId && p.pc.hasArrived) .done
              simp [hp] at this
              simp only [GroupRun.setPc, this]
              exact h.log_arrived q
            log_finished := fun q => by
              have := cnt (fun p => q p.passengerId && p.pc.hasFinished) .done
              simp [hp] at this
              simp only [GroupRun.setPc, this]
              exact h.log_finished q
            log_release := h.log_release
            log_acquire := by simpa [h.acquired_of_passenger hk] using hacq0
            log_spawn := by
              show List.filterMap Event.spawnId r.log =
                List.map (fun p => p.passengerId) (r.passengers.set k _)
              rw [map_id_setPc hk, ← h.log_spawn]
            log_order := h.log_order }
      · simp [hph] at hs
    | done => simp [hp] at hs

theorem GroupRun.Inv.afterStep {r : GroupRun} {gate : BoardingGate} {a : GroupAction}
    {s1 : GroupRun × BoardingGate} (h : r.Inv) (hs : r.step gate a = some s1) :
    s1.1.Inv := by
  cases a with
  | main => exact h.stepMain hs
  | passenger k => exact h.stepPassenger hs

/-! ## Who holds the gate -/

theorem any_eq_countP_pos {α : Type} (p : α → Bool) (l : List α) :
    l.any p = decide (0 < l.countP p) := by
  rw [Bool.eq_iff_iff]
  simp only [List.any_eq_true, decide_eq_true_eq, List.countP_pos_iff]

theorem GroupRun.Inv.holdsGate_eq {r : GroupRun} (h : r.Inv) :
    r.holdsGate = (r.pc.acquired && decide (r.boardingBarrier.phase = 0)) := by
  unfold GroupRun.holdsGate
  rw [any_eq_countP_pos, any_eq_countP_pos, h.log_acquire, h.log_release]
  have := h.phase_le
  cases hacq : r.pc.acquired <;>
    rcases Nat.eq_zero_or_pos r.boardingBarrier.phase with h0 | h0 <;> simp [h0]
  all_goals omega

theorem GroupRun.Inv.gateEffect {r : GroupRun} {gate : BoardingGate} {a : GroupAction}
    {s1 : GroupRun × BoardingGate} (h : r.Inv) (hs : r.step gate a = some s1) :
    GateEffect r s1.1 gate s1.2 := by
  have h1 := h.afterStep hs
  have e0 := h.holdsGate_eq
  have e1 := h1.holdsGate_eq
  cases a with
  | main =>
    simp only [GroupRun.step, GroupRun.stepMain] at hs
    cases hpc : r.pc with
    | start =>
      simp only [hpc, Option.some.injEq] at hs
      subst hs
      apply GateEffect.quiet rfl
      rw [e0, e1, hpc]
      rfl
    | acquiring =>
      simp only [hpc] at hs
      unfold BoardingGate.acquire at hs
      by_cases hf : 0 < gate.gateSemaphore
      · simp only [hf, if_true, Option.some.injEq] at hs
        subst hs
        have hph : r.boardingBarrier.phase = 0 := by
          have hp := h.pcs
          simp only [GroupRun.pcInv, hpc] at hp
          have hl := h.phase_le
          by_contra hne
          have := (h.phase_arrived (by omega)).2
          rw [hp] at this
          have := h.size_pos
          simp at *
          omega
        apply GateEffect.acquire _ _ hf rfl
        · rw [e0, hpc]; rfl
        · rw [e1]; simp [GroupPc.acquired, hph]
      · simp [hf] at hs
    | spawning i =>
      simp only [hpc] at hs
      by_cases hi : i ≤ r.groupSize
      · simp only [hi, if_true, Option.some.injEq] at hs
        subst hs
        apply GateEffect.quiet rfl
        rw [e0, e1, hpc]
        rfl
      · simp only [hi, if_false, Option.some.injEq] at hs
        subst hs
        apply GateEffect.quiet rfl
        rw [e0, e1, hpc]
        rfl
    | joining j =>
      simp only [hpc] at hs
      cases hj : r.passengers[j]? with
      | none =>
        simp only [hj, Option.some.injEq] at hs
        subst hs
        apply GateEffect.quiet rfl
        rw [e0, e1, hpc]
        rfl
      | some p =>
        simp only [hj] at hs
        by_cases hd : p.pc = .done
        · simp only [hd, if_true, Option.some.injEq] at hs
          subst hs
          apply GateEffect.quiet rfl
          rw [e0, e1, hpc]
          rfl
        · simp [hd] at hs
    | returned => simp [hpc] at hs
  | passenger k =>
    simp only [GroupRun.step, GroupRun.stepPassenger] at hs
    cases hk : r.passengers[k]? with
    | none => simp [hk] at hs
    | some p =>
      simp only [hk] at hs
      cases hp : p.pc with
      | boarding =>
        simp only [hp, Option.some.injEq] at hs
        subst hs
        exact GateEffect.quiet rfl (by rw [e0, e1])
      | sleeping =>
        simp only [hp, Option.some.injEq] at hs
        subst hs
        exact GateEffect.quiet rfl (by rw [e0, e1])
      | arriving =>
        simp only [hp, Option.some.injEq] at hs
        subst hs
        exact GateEffect.quiet rfl (by rw [e0, e1])
      | completing =>
        simp only [hp, Option.some.injEq] at hs
        subst hs
        have hmem : p ∈ r.passengers := List.mem_iff_getElem?.2 ⟨k, hk⟩
        have hpos : 0 < r.passengers.countP (fun p => p.pc.isCompleting) :=
          List.countP_pos_iff.2 ⟨p, hmem, by simp [hp]⟩
        have hC0 := h.completing_eq
        have hcond : r.boardingBarrier.phase = 0 ∧ (r.arrivals : Int) = r.groupSize := by
          by_contra hn
          rw [if_neg hn] at hC0
          omega
        apply GateEffect.release _ _ rfl
        · rw [e0, h.acquired_of_passenger hk]
          simp [hcond.1]
        · rw [e1]
          simp
      | waiting =>
        simp only [hp] at hs
        by_cases hph : 0 < r.boardingBarrier.phase
        · simp only [hph, if_true, Option.some.injEq] at hs
          subst hs
          exact GateEffect.quiet rfl (by rw [e0, e1])
        · simp [hph] at hs
      | done => simp [hp] at hs

/-! ## An isolated boardGroup call: safety along every schedule -/

theorem GroupRun.Inv.gateInv_step {r : GroupRun} {gate : BoardingGate} {a : GroupAction}
    {s1 : GroupRun × BoardingGate} (h : r.Inv) (hg : r.gateInv gate)
    (hs : r.step gate a = some s1) : s1.1.gateInv s1.2 ∧ s1.2.id = gate.id := by
  unfold GroupRun.gateInv at hg ⊢
  rcases h.gateEffect hs with ⟨e, hh⟩ | ⟨h0, h1, hfree, e⟩ | ⟨h0, h1, e⟩
  · rw [e, hh]
    exact ⟨hg, rfl⟩
  · rw [e, h1]
    rw [h0] at hg
    refine ⟨?_, rfl⟩
    simp at hg
    simp only [if_true]
    omega
  · rw [e, h1]
    rw [h0] at hg
    simp only [if_true] at hg
    simp [BoardingGate.release, hg]

theorem GroupRun.exec_keeps_inv :
    ∀ (sched : List GroupAction) (r : GroupRun) (gate : BoardingGate)
      (s : GroupRun × BoardingGate), r.Inv → r.gateInv gate →
      GroupRun.exec (r, gate) sched = some s →
      s.1.Inv ∧ s.1.gateInv s.2 ∧ s.2.id = gate.id := by
  intro sched
  induction sched with
  | nil =>
    intro r gate s h hg he
    simp only [GroupRun.exec, Option.some.injEq] at he
    subst he
    exact ⟨h, hg, rfl⟩
  | cons a sched ih =>
    intro r gate s h hg he
    simp only [GroupRun.exec] at he
    cases hs : r.step gate a with
    | none => simp [hs] at he
    | some s1 =>
      simp only [hs] at he
      obtain ⟨hg1, hid1⟩ := h.gateInv_step hg hs
      obtain ⟨h2, hg2, hid2⟩ := ih s1.1 s1.2 s (h.afterStep hs) hg1 he
      exact ⟨h2, hg2, hid2.trans hid1⟩

theorem GroupRun.init_gateInv (groupId groupSize : Int) (gate : BoardingGate)
    (hg : gate.gateSemaphore = 1) : (GroupRun.init groupId groupSize).gateInv gate := by
  simp [GroupRun.gateInv, GroupRun.holdsGate, GroupRun.init, hg]

/-! ## An isolated boardGroup call: every step makes progress towards the return -/

theorem GroupRun.measure_step {r : GroupRun} {gate : BoardingGate} {a : GroupAction}
    {s1 : GroupRun × BoardingGate} (hs : r.step gate a = some s1) :
    s1.1.measure < r.measure := by
  cases a with
  | main =>
    simp only [GroupRun.step, GroupRun.stepMain] at hs
    cases hpc : r.pc with
    | start =>
      simp only [hpc, Option.some.injEq] at hs
      subst hs
      simp only [GroupRun.measure, hpc]
      omega
    | acquiring =>
      simp only [hpc] at hs
      cases hacq : gate.acquire with
      | none => simp [hacq] at hs
      | some g1 =>
        simp only [hacq, Option.some.injEq] at hs
        subst hs
        simp only [GroupRun.measure, hpc]
        have : r.groupSize + 1 - 1 = r.groupSize := by omega
        rw [this]
        omega
    | spawning i =>
      simp only [hpc] at hs
      by_cases hi : i ≤ r.groupSize
      · simp only [hi, if_true, Option.some.injEq] at hs
        subst hs
        simp only [GroupRun.measure, hpc, List.map_append, List.sum_append, List.map_cons,
          List.map_nil, List.sum_cons, List.sum_nil, List.length_append, List.length_singleton,
          PassengerPc.weight]
        have h1 : (r.groupSize + 1 - i).toNat = (r.groupSize + 1 - (i + 1)).toNat + 1 := by
          omega
        rw [h1]
        omega
      · simp only [hi, if_false, Option.some.injEq] at hs
        subst hs
        simp only [GroupRun.measure, hpc]
        omega
    | joining j =>
      simp only [hpc] at hs
      cases hj : r.passengers[j]? with
      | none =>
        simp only [hj, Option.some.injEq] at hs
        subst hs
        simp only [GroupRun.measure, hpc]
        omega
      | some p =>
        simp only [hj] at hs
        by_cases hd : p.pc = .done
        · simp only [hd, if_true, Option.some.injEq] at hs
          subst hs
          have hlt : j < r.passengers.length := (List.getElem?_eq_some.1 hj).1
          simp only [GroupRun.measure, hpc]
          omega
        · simp [hd] at hs
    | returned => simp [hpc] at hs
  | passenger k =>
    simp only [GroupRun.step, GroupRun.stepPassenger] at hs
    cases hk : r.passengers[k]? with
    | none => simp [hk] at hs
    | some p =>
      simp only [hk] at hs
      have w := fun (c : PassengerPc) =>
        sum_map_set_add (fun p => p.pc.weight) r.passengers k p { p with pc := c } hk
      cases hp : p.pc with
      | boarding =>
        simp only [hp, Option.some.injEq] at hs
        subst hs
        have := w .sleeping
        simp only [hp, PassengerPc.weight_boarding, PassengerPc.weight_sleeping,
          PassengerPc.weight_arriving, PassengerPc.weight_completing, PassengerPc.weight_waiting,
          PassengerPc.weight_done] at this
        simp only [GroupRun.measure, GroupRun.setPc, List.length_set]
        omega
      | sleeping =>
        simp only [hp, Option.some.injEq] at hs
        subst hs
        have := w .arriving
        simp only [hp, PassengerPc.weight_boarding, PassengerPc.weight_sleeping,
          PassengerPc.weight_arriving, PassengerPc.weight_completing, PassengerPc.weight_waiting,
          PassengerPc.weight_done] at this
        simp only [GroupRun.measure, GroupRun.setPc, List.length_set]
        omega
      | arriving =>
        simp only [hp, Option.some.injEq] at hs
        subst hs
        by_cases hz : r.boardingBarrier.pending - 1 = 0
        · have := w .completing
          simp only [hp, PassengerPc.weight_boarding, PassengerPc.weight_sleeping,
          PassengerPc.weight_arriving, PassengerPc.weight_completing, PassengerPc.weight_waiting,
          PassengerPc.weight_done] at this
          simp only [GroupRun.measure, GroupRun.setPc, List.length_set, hz, if_true]
          omega
        · have := w .waiting
          simp only [hp, PassengerPc.weight_boarding, PassengerPc.weight_sleeping,
          PassengerPc.weight_arriving, PassengerPc.weight_completing, PassengerPc.weight_waiting,
          PassengerPc.weight_done] at this
          simp only [GroupRun.measure, GroupRun.setPc, List.length_set, hz, if_false]
          omega
      | completing =>
        simp only [hp, Option.some.injEq] at hs
        subst hs
        have := w .done
        simp only [hp, PassengerPc.weight_boarding, PassengerPc.weight_sleeping,
          PassengerPc.weight_arriving, PassengerPc.weight_completing, PassengerPc.weight_waiting,
          PassengerPc.weight_done] at this
        simp only [GroupRun.measure, GroupRun.setPc, List.length_set]
        omega
      | waiting =>
        simp only [hp] at hs
        by_cases hph : 0 < r.boardingBarrier.phase
        · simp only [hph, if_true, Option.some.injEq] at hs
          subst hs
          have := w .done
          simp only [hp, PassengerPc.weight_boarding, PassengerPc.weight_sleeping,
          PassengerPc.weight_arriving, PassengerPc.weight_completing, PassengerPc.weight_waiting,
          PassengerPc.weight_done] at this
          simp only [GroupRun.measure, GroupRun.setPc, List.length_set]
          omega
        · simp [hph] at hs
      | done => simp [hp] at hs

theorem GroupRun.passenger_can_step (r : GroupRun) (gate : BoardingGate) {k : Nat}
    {p : Passenger} (hk : r.passengers[k]? = some p)
    (hp : p.pc ≠ .done) (hw : p.pc = .waiting → 0 < r.boardingBarrier.phase) :
    ∃ s1, r.step gate (.passenger k) = some s1 := by
  simp only [GroupRun.step, GroupRun.stepPassenger, hk]
  cases hpc : p.pc with
  | boarding => exact ⟨_, rfl⟩
  | sleeping => exact ⟨_, rfl⟩
  | arriving => exact ⟨_, rfl⟩
  | completing => exact ⟨_, rfl⟩
  | waiting =>
    have := hw hpc
    simp only [this, if_true]
    exact ⟨_, rfl⟩
  | done => exact absurd hpc hp

theorem GroupRun.Inv.progress {r : GroupRun} {gate : BoardingGate} (h : r.Inv)
    (hg : r.gateInv gate) (hret : r.pc ≠ .returned) :
    ∃ a s1, r.step gate a = some s1 := by
  have hp := h.pcs
  unfold GroupRun.pcInv at hp
  cases hpc : r.pc with
  | start => exact ⟨.main, _, by
        simp only [GroupRun.step, GroupRun.stepMain, hpc]
        rfl⟩
  | acquiring =>
    have hh : r.holdsGate = false := by rw [h.holdsGate_eq, hpc]; rfl
    unfold GroupRun.gateInv at hg
    rw [hh] at hg
    simp only [Bool.false_eq_true, if_false] at hg
    have hstep : r.step gate .main =
        some ({ r with pc := .spawning 1, log := r.log ++ [.gateAcquired gate.getId] },
          { gate with gateSemaphore := gate.gateSemaphore - 1 }) := by
      simp [GroupRun.step, GroupRun.stepMain, hpc, BoardingGate.acquire, hg]
    exact ⟨.main, _, hstep⟩
  | spawning i =>
    by_cases hi : i ≤ r.groupSize
    · exact ⟨.main, _, by
        simp only [GroupRun.step, GroupRun.stepMain, hpc, hi, if_true]
        rfl⟩
    · exact ⟨.main, _, by
        simp only [GroupRun.step, GroupRun.stepMain, hpc, hi, if_false]
        rfl⟩
  | joining j =>
    simp only [hpc] at hp
    cases hj : r.passengers[j]? with
    | none => exact ⟨.main, _, by
        simp only [GroupRun.step, GroupRun.stepMain, hpc, hj]
        rfl⟩
    | some p =>
      by_cases hd : p.pc = .done
      · exact ⟨.main, _, by
        simp only [GroupRun.step, GroupRun.stepMain, hpc, hj, hd, if_true]
        rfl⟩
      · by_cases hph : 0 < r.boardingBarrier.phase
        · obtain ⟨s1, hs1⟩ := r.passenger_can_step gate hj hd (fun _ => hph)
          exact ⟨_, s1, hs1⟩
        · have hph0 : r.boardingBarrier.phase = 0 := by omega
          by_cases harr : (r.arrivals : Int) = r.groupSize
          · have hC := h.completing_eq
            rw [if_pos ⟨hph0, harr⟩] at hC
            have hpos : 0 < r.passengers.countP (fun p => p.pc.isCompleting) := by omega
            obtain ⟨p1, hmem, hc⟩ := List.countP_pos_iff.1 hpos
            obtain ⟨k, hk⟩ := List.mem_iff_getElem?.1 hmem
            have hc1 : p1.pc = .completing := by
              cases hx : p1.pc <;> simp [hx] at hc ⊢
            obtain ⟨s1, hs1⟩ := r.passenger_can_step gate hk (by simp [hc1]) (by simp [hc1])
            exact ⟨_, s1, hs1⟩
          · have hale : r.arrivals ≤ r.passengers.length := List.countP_le_length _
            have hne : r.arrivals ≠ r.passengers.length := by
              intro he
              apply harr
              rw [he]
              exact hp.1
            have hex : ∃ p1 ∈ r.passengers, p1.pc.hasArrived = false := by
              by_contra hall
              apply hne
              apply List.countP_eq_length.2
              intro a ha
              by_contra hna
              exact hall ⟨a, ha, by simpa using hna⟩
            obtain ⟨p1, hmem, hna⟩ := hex
            obtain ⟨k, hk⟩ := List.mem_iff_getElem?.1 hmem
            obtain ⟨s1, hs1⟩ := r.passenger_can_step gate hk
              (by intro hx; simp [hx] at hna) (by intro hx; simp [hx] at hna)
            exact ⟨_, s1, hs1⟩
  | returned => exact absurd hpc hret

theorem GroupRun.can_return :
    ∀ (m : Nat) (r : GroupRun) (gate : BoardingGate), r.measure ≤ m → r.Inv → r.gateInv gate →
      ∃ sched s, GroupRun.exec (r, gate) sched = some s ∧ s.1.pc = .returned := by
  intro m
  induction m with
  | zero =>
    intro r gate hm h hg
    by_cases hret : r.pc = .returned
    · exact ⟨[], (r, gate), rfl, hret⟩
    · obtain ⟨a, s1, hs⟩ := h.progress hg hret
      have := GroupRun.measure_step hs
      omega
  | succ m ih =>
    intro r gate hm h hg
    by_cases hret : r.pc = .returned
    · exact ⟨[], (r, gate), rfl, hret⟩
    · obtain ⟨a, s1, hs⟩ := h.progress hg hret
      have hlt := GroupRun.measure_step hs
      obtain ⟨sched, s, he, hpc⟩ :=
        ih s1.1 s1.2 (by omega) (h.afterStep hs) (h.gateInv_step hg hs).1
      refine ⟨a :: sched, s, ?_, hpc⟩
      simp only [GroupRun.exec, hs]
      exact he

theorem GroupRun.exec_length :
    ∀ (sched : List GroupAction) (s0 s : GroupRun × BoardingGate),
      GroupRun.exec s0 sched = some s → sched.length + s.1.measure ≤ s0.1.measure := by
  intro sched
  induction sched with
  | nil =>
    intro s0 s he
    simp only [GroupRun.exec, Option.some.injEq] at he
    subst he
    simp
  | cons a sched ih =>
    intro s0 s he
    simp only [GroupRun.exec] at he
    cases hs : s0.1.step s0.2 a with
    | none => simp [hs] at he
    | some s1 =>
      simp only [hs] at he
      have h1 := GroupRun.measure_step hs
      have h2 := ih s1 s he
      simp only [List.length_cons]
      omega

theorem boardGroup_eq_some {groupId groupSize : Int} {gate : BoardingGate}
    {sched : List GroupAction} {s : GroupRun × BoardingGate} :
    boardGroup groupId groupSize gate sched = some s ↔
      GroupRun.exec (GroupRun.init groupId groupSize, gate) sched = some s ∧
        s.1.pc = .returned := by
  unfold boardGroup
  cases he : GroupRun.exec (GroupRun.init groupId groupSize, gate) sched with
  | none => simp
  | some t =>
    simp only [Option.some.injEq]
    by_cases ht : t.1.pc = .returned
    · simp only [ht, if_true, Option.some.injEq]
      constructor
      · intro h; subst h; exact ⟨rfl, ht⟩
      · intro h; exact h.1
    · simp only [ht, if_false]
      constructor
      · intro h; simp at h
      · intro h; exact absurd (h.1 ▸ h.2) ht

theorem boardGroup_returns (groupId groupSize : Int) (gate : BoardingGate)
    (hn : 1 ≤ groupSize) (hg : gate.gateSemaphore = 1) :
    ∃ sched s, boardGroup groupId groupSize gate sched = some s := by
  obtain ⟨sched, s, he, hpc⟩ := GroupRun.can_return _ (GroupRun.init groupId groupSize) gate
    (Nat.le_refl _) (GroupRun.Inv.atEntry groupId groupSize hn)
    (GroupRun.init_gateInv groupId groupSize gate hg)
  exact ⟨sched, s, boardGroup_eq_some.2 ⟨he, hpc⟩⟩

theorem GroupRun.step_static {r : GroupRun} {gate : BoardingGate} {a : GroupAction}
    {s1 : GroupRun × BoardingGate} (hs : r.step gate a = some s1) :
    s1.1.groupSize = r.groupSize ∧ s1.1.groupId = r.groupId := by
  cases a with
  | main =>
    simp only [GroupRun.step, GroupRun.stepMain] at hs
    cases hpc : r.pc with
    | start =>
      simp only [hpc, Option.some.injEq] at hs
      subst hs
      exact ⟨rfl, rfl⟩
    | acquiring =>
      simp only [hpc] at hs
      cases hacq : gate.acquire with
      | none => simp [hacq] at hs
      | some g1 =>
        simp only [hacq, Option.some.injEq] at hs
        subst hs
        exact ⟨rfl, rfl⟩
    | spawning i =>
      simp only [hpc] at hs
      by_cases hi : i ≤ r.groupSize
      · simp only [hi, if_true, Option.some.injEq] at hs
        subst hs
        exact ⟨rfl, rfl⟩
      · simp only [hi, if_false, Option.some.injEq] at hs
        subst hs
        exact ⟨rfl, rfl⟩
    | joining j =>
      simp only [hpc] at hs
      cases hj : r.passengers[j]? with
      | none =>
        simp only [hj, Option.some.injEq] at hs
        subst hs
        exact ⟨rfl, rfl⟩
      | some p =>
        simp only [hj] at hs
        by_cases hd : p.pc = .done
        · simp only [hd, if_true, Option.some.injEq] at hs
          subst hs
          exact ⟨rfl, rfl⟩
        · simp [hd] at hs
    | returned => simp [hpc] at hs
  | passenger k =>
    simp only [GroupRun.step, GroupRun.stepPassenger] at hs
    cases hk : r.passengers[k]? with
    | none => simp [hk] at hs
    | some p =>
      simp only [hk] at hs
      cases hp : p.pc with
      | boarding =>
        simp only [hp, Option.some.injEq] at hs
        subst hs
        exact ⟨rfl, rfl⟩
      | sleeping =>
        simp only [hp, Option.some.injEq] at hs
        subst hs
        exact ⟨rfl, rfl⟩
      | arriving =>
        simp only [hp, Option.some.injEq] at hs
        subst hs
        exact ⟨rfl, rfl⟩
      | completing =>
        simp only [hp, Option.some.injEq] at hs
        subst hs
        exact ⟨rfl, rfl⟩
      | waiting =>
        simp only [hp] at hs
        by_cases hph : 0 < r.boardingBarrier.phase
        · simp only [hph, if_true, Option.some.injEq] at hs
          subst hs
          exact ⟨rfl, rfl⟩
        · simp [hph] at hs
      | done => simp [hp] at hs

theorem GroupRun.exec_static :
    ∀ (sched : List GroupAction) (s0 s : GroupRun × BoardingGate),
      GroupRun.exec s0 sched = some s →
      s.1.groupSize = s0.1.groupSize ∧ s.1.groupId = s0.1.groupId := by
  intro sched
  induction sched with
  | nil =>
    intro s0 s he
    simp only [GroupRun.exec, Option.some.injEq] at he
    subst he
    exact ⟨rfl, rfl⟩
  | cons a sched ih =>
    intro s0 s he
    simp only [GroupRun.exec] at he
    cases hs : s0.1.step s0.2 a with
    | none => simp [hs] at he
    | some s1 =>
      simp only [hs] at he
      have h1 := GroupRun.step_static hs
      have h2 := ih s1 s he
      exact ⟨h2.1.trans h1.1, h2.2.trans h1.2⟩

theorem GroupRun.Inv.phase_of_returned {r : GroupRun} (h : r.Inv) (hret : r.pc = .returned) :
    r.boardingBarrier.phase = 1 ∧ (r.passengers.length : Int) = r.groupSize ∧
      ∀ p ∈ r.passengers, p.pc = .done := by
  have hp := h.pcs
  simp only [GroupRun.pcInv, hret] at hp
  have hn := h.size_pos
  refine ⟨?_, hp.1, hp.2⟩
  cases hl : r.passengers with
  | nil =>
    rw [hl] at hp
    simp at hp
    omega
  | cons p rest =>
    have hmem : p ∈ r.passengers := by rw [hl]; exact List.mem_cons_self _ _
    exact h.done_phase p hmem (hp.2 p hmem)

/-- The run of `boardGroup` from its entry on a free gate, along any schedule, keeps the
invariant, and keeps the size and the id it was called with. -/
theorem GroupRun.reach {groupId groupSize : Int} {gate : BoardingGate}
    {sched : List GroupAction} {s : GroupRun × BoardingGate} (hn : 1 ≤ groupSize)
    (hg : gate.gateSemaphore = 1)
    (he : GroupRun.exec (GroupRun.init groupId groupSize, gate) sched = some s) :
    s.1.Inv ∧ s.1.gateInv s.2 ∧ s.2.id = gate.id ∧ s.1.groupSize = groupSize ∧
      s.1.groupId = groupId := by
  obtain ⟨h1, h2, h3⟩ := GroupRun.exec_keeps_inv sched _ gate s (GroupRun.Inv.atEntry groupId groupSize hn)
    (GroupRun.init_gateInv groupId groupSize gate hg) he
  obtain ⟨h4, h5⟩ := GroupRun.exec_static sched _ s he
  exact ⟨h1, h2, h3, h4, h5⟩

theorem ids_eq_range {l : List Passenger} {n : Int} (hlen : (l.length : Int) = n)
    (hids : ∀ (k : Nat) (p : Passenger), l[k]? = some p → p.passengerId = (k : Int) + 1) :
    l.map (fun p => p.passengerId) = (List.range n.toNat).map (fun k : Nat => (k : Int) + 1) := by
  have hn : n.toNat = l.length := by omega
  rw [hn]
  apply List.ext_getElem?
  intro k
  simp only [List.getElem?_map]
  by_cases hk : k < l.length
  · rw [List.getElem?_range hk]
    obtain ⟨p, hp⟩ : ∃ p, l[k]? = some p := ⟨l[k], List.getElem?_eq_getElem hk⟩
    rw [hp]
    simp [hids k p hp]
  · rw [List.getElem?_eq_none (by omega), List.getElem?_eq_none (by simp; omega)]
    rfl

theorem count_id_range (n : Int) (i : Int) (h1 : 1 ≤ i) (h2 : i ≤ n) :
    ((List.range n.toNat).map (fun k : Nat => (k : Int) + 1)).count i = 1 := by
  apply List.count_eq_one_of_mem
  · apply List.Nodup.map _ (List.nodup_range _)
    intro a b hab
    simp only at hab
    omega
  · rw [List.mem_map]
    refine ⟨(i - 1).toNat, ?_, ?_⟩
    · rw [List.mem_range]
      omega
    · omega

/-! ## What the invariant says about the log of one call -/

theorem GroupRun.Inv.release_count {r : GroupRun} (h : r.Inv) :
    r.log.countP Event.isRelease ≤ 1 ∧
      (r.pc = .returned → r.log.countP Event.isRelease = 1) := by
  rw [h.log_release]
  exact ⟨h.phase_le, fun hret => (h.phase_of_returned hret).1⟩

theorem GroupRun.Inv.release_preceded {r : GroupRun} (h : r.Inv) :
    ∀ pre e post, r.log = pre ++ e :: post → e.isRelease = true →
      ((pre.countP (Event.isArrival fun _ => true) : Nat) : Int) = r.groupSize ∧
      ((pre.countP (Event.isFinished fun _ => true) : Nat) : Int) = r.groupSize := by
  intro pre e post hlog hrel
  have hidx : r.log[pre.length]? = some e := by
    rw [hlog, List.getElem?_append_right (Nat.le_refl _)]
    simp
  have := h.log_order pre.length e hidx hrel
  rw [hlog] at this
  simpa [Event.allBoarded] using this

theorem GroupRun.Inv.workers_of_returned {r : GroupRun} (h : r.Inv) (hret : r.pc = .returned) :
    r.passengers.map (fun p => p.passengerId) =
      (List.range r.groupSize.toNat).map (fun k : Nat => (k : Int) + 1) ∧
    r.log.filterMap Event.spawnId =
      (List.range r.groupSize.toNat).map (fun k : Nat => (k : Int) + 1) ∧
    (∀ i : Int, 1 ≤ i → i ≤ r.groupSize →
      r.log.countP (Event.isArrival fun j => j == i) = 1) ∧
    ((r.log.countP (Event.isArrival fun _ => true) : Nat) : Int) = r.groupSize := by
  obtain ⟨_, hlen, hdone⟩ := h.phase_of_returned hret
  have hids := ids_eq_range hlen h.ids
  refine ⟨hids, by rw [h.log_spawn, hids], ?_, ?_⟩
  · intro i h1 h2
    rw [h.log_arrived]
    have hc : r.passengers.countP (fun p => (p.passengerId == i) && p.pc.hasArrived) =
        r.passengers.countP ((fun j => j == i) ∘ fun p => p.passengerId) := by
      apply List.countP_congr
      intro p hp
      simp [hdone p hp]
    rw [hc, ← List.countP_map, hids, ← List.count_eq_countP]
    exact count_id_range r.groupSize i h1 h2
  · rw [h.log_arrived]
    have hc : r.passengers.countP (fun p => true && p.pc.hasArrived) =
        r.passengers.length := by
      apply List.countP_eq_length.2
      intro p hp
      simp [hdone p hp]
    rw [hc]
    exact hlen

/-! ## The interleaved system -/

theorem System.Inv.atStart (gates : List BoardingGate) (hfree : ∀ g ∈ gates, g.gateSemaphore = 1) :
    (System.init gates).Inv := by
  constructor
  · intro t ht
    simp [System.init] at ht
  · intro j g hj
    have hmem : g ∈ gates := List.mem_iff_getElem?.2 ⟨j, hj⟩
    simp [System.init, System.holders, System.groupHolders, hfree g hmem]

theorem getElem?_set_cases {α : Type} {l : List α} {i j : Nat} {a b : α}
    (h : (l.set i a)[j]? = some b) : (i = j ∧ b = a ∧ (l[j]?).isSome) ∨ (i ≠ j ∧ l[j]? = some b) := by
  by_cases hij : i = j
  · subst hij
    left
    rw [List.getElem?_set] at h
    simp only [if_true] at h
    by_cases hlt : i < l.length
    · simp only [hlt, if_true, Option.some.injEq] at h
      exact ⟨rfl, h.symm, by simp [hlt]⟩
    · simp [hlt] at h
  · right
    rw [List.getElem?_set_ne hij] at h
    exact ⟨hij, h⟩

theorem System.Inv.afterSysStep {s s1 : System} {a : SysAction} (h : s.Inv)
    (hsize : ∀ size, a.cohortSize = some size → 1 ≤ size) (hs : s.step a = some s1) :
    s1.Inv := by
  cases a with
  | driverTry =>
    simp only [System.step] at hs
    cases hd : s.driver with
    | probed j => simp [hd] at hs
    | scanning j =>
      simp only [hd] at hs
      cases hj : s.gates[j]? with
      | none =>
        simp only [hj, Option.some.injEq] at hs
        subst hs
        refine ⟨h.groups_inv, ?_⟩
        intro j1 g hg
        have := h.one_holder j1 g hg
        simpa [System.holders, System.groupHolders, hd] using this
      | some gate =>
        simp only [hj] at hs
        by_cases ht : gate.try_acquire.1 = true
        · simp only [ht, if_true, Option.some.injEq] at hs
          subst hs
          refine ⟨h.groups_inv, ?_⟩
          intro j1 g hg
          have hold := h.one_holder j gate hj
          simp only [System.holders, System.groupHolders, hd] at hold ⊢
          have hfree : 0 < gate.gateSemaphore := by
            by_contra hn
            simp [BoardingGate.try_acquire, hn] at ht
          rcases getElem?_set_cases hg with ⟨hjj, hgeq, _⟩ | ⟨hjj, hgeq⟩
          · subst hjj
            subst hgeq
            simp [BoardingGate.try_acquire, hfree] at hold ⊢
            omega
          · have := h.one_holder j1 g hgeq
            simp only [System.holders, System.groupHolders, hd] at this
            have hne : ¬ (DriverPc.probed j = DriverPc.probed j1) := by
              intro he
              exact hjj (DriverPc.probed.inj he)
            simpa [hne] using this
        · simp only [ht, Bool.false_eq_true, if_false, Option.some.injEq] at hs
          subst hs
          refine ⟨h.groups_inv, ?_⟩
          intro j1 g hg
          have := h.one_holder j1 g hg
          simpa [System.holders, System.groupHolders, hd] using this
  | driverRelease groupId size =>
    simp only [System.step] at hs
    cases hd : s.driver with
    | scanning j => simp [hd] at hs
    | probed j =>
      simp only [hd] at hs
      cases hj : s.gates[j]? with
      | none => simp [hj] at hs
      | some gate =>
        simp only [hj, Option.some.injEq] at hs
        subst hs
        have hnew : (GroupRun.init groupId size).holdsGate = false := by
          simp [GroupRun.holdsGate, GroupRun.init]
        constructor
        · intro t ht
          rcases List.mem_append.1 ht with ht | ht
          · exact h.groups_inv t ht
          · simp only [List.mem_singleton] at ht
            subst ht
            exact GroupRun.Inv.atEntry groupId size (hsize size rfl)
        · intro j1 g hg
          have hold := h.one_holder j gate hj
          simp only [System.holders, System.groupHolders, hd, if_true] at hold
          simp only [System.holders, System.groupHolders, List.countP_append]
          rcases getElem?_set_cases hg with ⟨hjj, hgeq, _⟩ | ⟨hjj, hgeq⟩
          · subst hjj
            subst hgeq
            simp [BoardingGate.release, hnew]
            omega
          · have := h.one_holder j1 g hgeq
            simp only [System.holders, System.groupHolders, hd] at this
            have hne : ¬ (DriverPc.probed j = DriverPc.probed j1) := by
              intro he
              exact hjj (DriverPc.probed.inj he)
            simp only [hne, if_false] at this
            simp [hnew]
            omega
  | group k a =>
    simp only [System.step] at hs
    cases hk : s.groups[k]? with
    | none => simp [hk] at hs
    | some t =>
      simp only [hk] at hs
      cases hj : s.gates[t.gate]? with
      | none => simp [hj] at hs
      | some gate =>
        simp only [hj] at hs
        cases hst : t.run.step gate a with
        | none => simp [hst] at hs
        | some r1 =>
          simp only [hst, Option.some.injEq] at hs
          subst hs
          have hmem : t ∈ s.groups := List.mem_iff_getElem?.2 ⟨k, hk⟩
          have hinv := h.groups_inv t hmem
          have heff := hinv.gateEffect hst
          constructor
          · intro t1 ht1
            rcases List.mem_or_eq_of_mem_set ht1 with ht1 | ht1
            · exact h.groups_inv t1 ht1
            · subst ht1
              exact hinv.afterStep hst
          · intro j1 g hg
            have hcnt := countP_set_add (fun t => t.gate == j1 && t.run.holdsGate) s.groups k t
              ⟨t.gate, r1.1⟩ hk
            simp only [System.holders, System.groupHolders]
            rcases getElem?_set_cases hg with ⟨hjj, hgeq, _⟩ | ⟨hjj, hgeq⟩
            · subst hjj
              subst hgeq
              have hold := h.one_holder t.gate gate hj
              simp only [System.holders, System.groupHolders] at hold
              simp only [beq_self_eq_true, Bool.true_and] at hcnt
              rcases heff with ⟨e, hh⟩ | ⟨h0, h1, hfree, e⟩ | ⟨h0, h1, e⟩
              · rw [hh] at hcnt
                rw [e]
                omega
              · rw [h0, h1] at hcnt
                simp only [Bool.false_eq_true, if_false, if_true] at hcnt
                rw [e]
                simp only
                omega
              · rw [h0, h1] at hcnt
                simp only [Bool.false_eq_true, if_false, if_true] at hcnt
                rw [e]
                simp only [BoardingGate.release]
                omega
            · have hold := h.one_holder j1 g hgeq
              simp only [System.holders, System.groupHolders] at hold
              have hb : (t.gate == j1) = false := by simpa using hjj
              simp only [hb, Bool.false_and, Bool.false_eq_true, if_false] at hcnt
              omega

theorem System.exec_keeps_sysInv :
    ∀ (acts : List SysAction) (s s1 : System), s.Inv →
      (∀ a ∈ acts, ∀ size, a.cohortSize = some size → 1 ≤ size) →
      System.exec s acts = some s1 → s1.Inv := by
  intro acts
  induction acts with
  | nil =>
    intro s s1 h _ he
    simp only [System.exec, Option.some.injEq] at he
    subst he
    exact h
  | cons a acts ih =>
    intro s s1 h hsz he
    simp only [System.exec] at he
    cases hs : s.step a with
    | none => simp [hs] at he
    | some s2 =>
      simp only [hs] at he
      exact ih s2 s1 (h.afterSysStep (hsz a (List.mem_cons_self _ _)) hs)
        (fun b hb => hsz b (List.mem_cons_of_mem _ hb)) he

theorem System.Reachable.inv {sys : System} (h : sys.Reachable) : sys.Inv := by
  obtain ⟨gates, acts, hfree, hsizes, he⟩ := h
  exact System.exec_keeps_sysInv acts _ sys (System.Inv.atStart gates hfree) hsizes he

/-- C1: from a pool whose gates are all free, along every interleaving of the driver's probes
(`try_acquire` then `release`, after which a `boardGroup` call is started) with the steps of the
started `boardGroup` calls, all cohorts being of size one or more, every gate keeps its counter
in {0, 1} and has at most one group between its acquire and its release; the counter and the
holders of a gate (the probing driver included) always add up to one. -/
theorem mutual_exclusion (gates : List BoardingGate) (acts : List SysAction) (s : System)
    (hfree : ∀ g ∈ gates, g.gateSemaphore = 1)
    (hsizes : ∀ a ∈ acts, ∀ size, a.cohortSize = some size → 1 ≤ size)
    (he : System.exec (System.init gates) acts = some s) :
    ∀ (j : Nat) (g : BoardingGate), s.gates[j]? = some g →
      g.gateSemaphore ≤ 1 ∧ s.groupHolders j ≤ 1 ∧ g.gateSemaphore + s.holders j = 1 := by
  intro j g hg
  have h := (System.exec_keeps_sysInv acts _ s (System.Inv.atStart gates hfree) hsizes he).one_holder j g hg
  have h1 := h
  simp only [System.holders] at h1
  refine ⟨by omega, by omega, h⟩

theorem mutual_exclusion_witness :
    (∀ g ∈ mainGates, g.gateSemaphore = 1) ∧
    (∀ a ∈ sampleInterleaving, ∀ size, a.cohortSize = some size → 1 ≤ size) ∧
    System.exec (System.init mainGates) sampleInterleaving = some sampleInterleavingEnd ∧
    ∀ (j : Nat) (g : BoardingGate), sampleInterleavingEnd.gates[j]? = some g →
      g.gateSemaphore ≤ 1 ∧ sampleInterleavingEnd.groupHolders j ≤ 1 ∧
        g.gateSemaphore + sampleInterleavingEnd.holders j = 1 :=
  ⟨by decide, by simp [sampleInterleaving, SysAction.cohortSize], by decide,
    mutual_exclusion mainGates sampleInterleaving sampleInterleavingEnd (by decide)
      (by simp [sampleInterleaving, SysAction.cohortSize]) (by decide)⟩

/-! ## Claims about one boardGroup call -/

/-- C2: for a cohort of `groupSize >= 1` on a free gate, `boardGroup` can run to its return (no
schedule takes more than `6 * groupSize + 4` steps, and as long as the call has not returned
some thread of it can step), and every run that returns has called `gate->release()` exactly
once; at no point of any run has it been called more than once. The same holds of every
`boardGroup` call inside the interleaved system, whatever the driver and the other groups
do. -/
theorem release_exactly_once (groupId groupSize : Int) (gate : BoardingGate)
    (hn : 1 ≤ groupSize) (hg : gate.gateSemaphore = 1) :
    (∃ sched s, boardGroup groupId groupSize gate sched = some s) ∧
    (∀ sched s, GroupRun.exec (GroupRun.init groupId groupSize, gate) sched = some s →
      sched.length ≤ 6 * groupSize.toNat + 4 ∧
      (s.1.pc ≠ .returned → ∃ a s1, s.1.step s.2 a = some s1)) ∧
    (∀ sched s, boardGroup groupId groupSize gate sched = some s →
      s.1.log.countP Event.isRelease = 1) ∧
    (∀ sched s, GroupRun.exec (GroupRun.init groupId groupSize, gate) sched = some s →
      s.1.log.countP Event.isRelease ≤ 1) ∧
    (∀ sys : System, sys.Reachable → ∀ t ∈ sys.groups,
      t.run.log.countP Event.isRelease ≤ 1 ∧
      (t.run.pc = .returned → t.run.log.countP Event.isRelease = 1)) := by
  refine ⟨boardGroup_returns groupId groupSize gate hn hg, ?_, ?_, ?_, ?_⟩
  · intro sched s he
    obtain ⟨hinv, hgi, _⟩ := GroupRun.reach hn hg he
    have hlen := GroupRun.exec_length sched _ s he
    have hm : (GroupRun.init groupId groupSize).measure = 6 * groupSize.toNat + 4 := by
      simp [GroupRun.measure, GroupRun.init]
    simp only [hm] at hlen
    exact ⟨by omega, fun hret => hinv.progress hgi hret⟩
  · intro sched s hb
    obtain ⟨he, hret⟩ := boardGroup_eq_some.1 hb
    obtain ⟨hinv, _⟩ := GroupRun.reach hn hg he
    exact hinv.release_count.2 hret
  · intro sched s he
    obtain ⟨hinv, _⟩ := GroupRun.reach hn hg he
    exact hinv.release_count.1
  · intro sys hsys t ht
    exact (hsys.inv.groups_inv t ht).release_count

theorem release_exactly_once_witness :
    (1 : Int) ≤ 2 ∧ (BoardingGate.new 1).gateSemaphore = 1 ∧
    (∃ sched s, boardGroup 1 2 (BoardingGate.new 1) sched = some s) ∧
    (∀ sched s, GroupRun.exec (GroupRun.init 1 2, BoardingGate.new 1) sched = some s →
      sched.length ≤ 6 * (2 : Int).toNat + 4 ∧
      (s.1.pc ≠ .returned → ∃ a s1, s.1.step s.2 a = some s1)) ∧
    (∀ sched s, boardGroup 1 2 (BoardingGate.new 1) sched = some s →
      s.1.log.countP Event.isRelease = 1) ∧
    (∀ sched s, GroupRun.exec (GroupRun.init 1 2, BoardingGate.new 1) sched = some s →
      s.1.log.countP Event.isRelease ≤ 1) ∧
    (∀ sys : System, sys.Reachable → ∀ t ∈ sys.groups,
      t.run.log.countP Event.isRelease ≤ 1 ∧
      (t.run.pc = .returned → t.run.log.countP Event.isRelease = 1)) :=
  ⟨by decide, rfl, release_exactly_once 1 2 (BoardingGate.new 1) (by decide) rfl⟩

/-- C3: for a cohort of `groupSize >= 1`, along every schedule of `boardGroup`, whenever the log
holds a `gate->release()`, the part of the log before it holds exactly `groupSize` barrier
arrivals and exactly `groupSize` `finished boarding` lines; the call can run to its return,
which it does with the release in its log. The same order holds in the log of every
`boardGroup` call inside the interleaved system. -/
theorem release_after_all_arrivals (groupId groupSize : Int) (gate : BoardingGate)
    (hn : 1 ≤ groupSize) (hg : gate.gateSemaphore = 1) :
    (∀ sched s, GroupRun.exec (GroupRun.init groupId groupSize, gate) sched = some s →
      ∀ pre e post, s.1.log = pre ++ e :: post → e.isRelease = true →
        ((pre.countP (Event.isArrival fun _ => true) : Nat) : Int) = groupSize ∧
        ((pre.countP (Event.isFinished fun _ => true) : Nat) : Int) = groupSize) ∧
    (∃ sched s, boardGroup groupId groupSize gate sched = some s ∧
      s.1.log.any Event.isRelease = true) ∧
    (∀ sys : System, sys.Reachable → ∀ t ∈ sys.groups,
      ∀ pre e post, t.run.log = pre ++ e :: post → e.isRelease = true →
        ((pre.countP (Event.isArrival fun _ => true) : Nat) : Int) = t.run.groupSize ∧
        ((pre.countP (Event.isFinished fun _ => true) : Nat) : Int) = t.run.groupSize) := by
  refine ⟨?_, ?_, ?_⟩
  · intro sched s he pre e post hlog hrel
    obtain ⟨hinv, _, _, hsize, _⟩ := GroupRun.reach hn hg he
    rw [← hsize]
    exact hinv.release_preceded pre e post hlog hrel
  · obtain ⟨sched, s, hb⟩ := boardGroup_returns groupId groupSize gate hn hg
    refine ⟨sched, s, hb, ?_⟩
    obtain ⟨he, hret⟩ := boardGroup_eq_some.1 hb
    obtain ⟨hinv, _⟩ := GroupRun.reach hn hg he
    rw [any_eq_countP_pos, hinv.release_count.2 hret]
    rfl
  · intro sys hsys t ht
    exact (hsys.inv.groups_inv t ht).release_preceded

theorem release_after_all_arrivals_witness :
    (1 : Int) ≤ 4 ∧ (BoardingGate.new 2).gateSemaphore = 1 ∧
    (∀ sched s, GroupRun.exec (GroupRun.init 1 4, BoardingGate.new 2) sched = some s →
      ∀ pre e post, s.1.log = pre ++ e :: post → e.isRelease = true →
        ((pre.countP (Event.isArrival fun _ => true) : Nat) : Int) = 4 ∧
        ((pre.countP (Event.isFinished fun _ => true) : Nat) : Int) = 4) ∧
    (∃ sched s, boardGroup 1 4 (BoardingGate.new 2) sched = some s ∧
      s.1.log.any Event.isRelease = true) ∧
    (∀ sys : System, sys.Reachable → ∀ t ∈ sys.groups,
      ∀ pre e post, t.run.log = pre ++ e :: post → e.isRelease = true →
        ((pre.countP (Event.isArrival fun _ => true) : Nat) : Int) = t.run.groupSize ∧
        ((pre.countP (Event.isFinished fun _ => true) : Nat) : Int) = t.run.groupSize) :=
  ⟨by decide, rfl, release_after_all_arrivals 1 4 (BoardingGate.new 2) (by decide) rfl⟩

/-- C9: for a cohort of `groupSize >= 1` on a free gate, `boardGroup` can run to its return, and
in every run that returns the passenger threads started are those of ids 1, 2, ...,
`groupSize` in this order, each id has exactly one barrier arrival in the log, and the log holds
`groupSize` arrivals in all; so it is for each size of the automated schedule of `main`, and
for every returned `boardGroup` call inside the interleaved system. -/
theorem worker_count (groupId groupSize : Int) (gate : BoardingGate)
    (hn : 1 ≤ groupSize) (hg : gate.gateSemaphore = 1) :
    (∃ sched s, boardGroup groupId groupSize gate sched = some s) ∧
    (∀ sched s, boardGroup groupId groupSize gate sched = some s →
      s.1.passengers.map (fun p => p.passengerId) =
        (List.range groupSize.toNat).map (fun k : Nat => (k : Int) + 1) ∧
      s.1.log.filterMap Event.spawnId =
        (List.range groupSize.toNat).map (fun k : Nat => (k : Int) + 1) ∧
      (∀ i : Int, 1 ≤ i → i ≤ groupSize →
        s.1.log.countP (Event.isArrival fun j => j == i) = 1) ∧
      ((s.1.log.countP (Event.isArrival fun _ => true) : Nat) : Int) = groupSize) ∧
    (∀ size ∈ mainGroupSizes, ∀ sched s, boardGroup groupId size gate sched = some s →
      ((s.1.log.countP (Event.isArrival fun _ => true) : Nat) : Int) = size) ∧
    (∀ sys : System, sys.Reachable → ∀ t ∈ sys.groups, t.run.pc = .returned →
      t.run.passengers.map (fun p => p.passengerId) =
        (List.range t.run.groupSize.toNat).map (fun k : Nat => (k : Int) + 1) ∧
      (∀ i : Int, 1 ≤ i → i ≤ t.run.groupSize →
        t.run.log.countP (Event.isArrival fun j => j == i) = 1) ∧
      ((t.run.log.countP (Event.isArrival fun _ => true) : Nat) : Int) = t.run.groupSize) := by
  have key : ∀ size : Int, 1 ≤ size → ∀ sched s,
      boardGroup groupId size gate sched = some s →
      s.1.passengers.map (fun p => p.passengerId) =
        (List.range size.toNat).map (fun k : Nat => (k : Int) + 1) ∧
      s.1.log.filterMap Event.spawnId =
        (List.range size.toNat).map (fun k : Nat => (k : Int) + 1) ∧
      (∀ i : Int, 1 ≤ i → i ≤ size →
        s.1.log.countP (Event.isArrival fun j => j == i) = 1) ∧
      ((s.1.log.countP (Event.isArrival fun _ => true) : Nat) : Int) = size := by
    intro size hsz sched s hb
    obtain ⟨he, hret⟩ := boardGroup_eq_some.1 hb
    obtain ⟨hinv, _, _, hsize, _⟩ := GroupRun.reach hsz hg he
    have := hinv.workers_of_returned hret
    rw [hsize] at this
    exact this
  refine ⟨boardGroup_returns groupId groupSize gate hn hg, key groupSize hn, ?_, ?_⟩
  · have hall : ∀ size ∈ mainGroupSizes, (1 : Int) ≤ size := by decide
    intro size hmem sched s hb
    exact (key size (hall size hmem) sched s hb).2.2.2
  · intro sys hsys t ht hret
    obtain ⟨h1, _, h3, h4⟩ := (hsys.inv.groups_inv t ht).workers_of_returned hret
    exact ⟨h1, h3, h4⟩

theorem worker_count_witness :
    (1 : Int) ≤ 5 ∧ (BoardingGate.new 1).gateSemaphore = 1 ∧
    (∃ sched s, boardGroup 1 5 (BoardingGate.new 1) sched = some s) ∧
    (∀ sched s, boardGroup 1 5 (BoardingGate.new 1) sched = some s →
      s.1.passengers.map (fun p => p.passengerId) =
        (List.range (5 : Int).toNat).map (fun k : Nat => (k : Int) + 1) ∧
      s.1.log.filterMap Event.spawnId =
        (List.range (5 : Int).toNat).map (fun k : Nat => (k : Int) + 1) ∧
      (∀ i : Int, 1 ≤ i → i ≤ 5 →
        s.1.log.countP (Event.isArrival fun j => j == i) = 1) ∧
      ((s.1.log.countP (Event.isArrival fun _ => true) : Nat) : Int) = 5) ∧
    (∀ size ∈ mainGroupSizes, ∀ sched s,
      boardGroup 1 size (BoardingGate.new 1) sched = some s →
      ((s.1.log.countP (Event.isArrival fun _ => true) : Nat) : Int) = size) ∧
    (∀ sys : System, sys.Reachable → ∀ t ∈ sys.groups, t.run.pc = .returned →
      t.run.passengers.map (fun p => p.passengerId) =
        (List.range t.run.groupSize.toNat).map (fun k : Nat => (k : Int) + 1) ∧
      (∀ i : Int, 1 ≤ i → i ≤ t.run.groupSize →
        t.run.log.countP (Event.isArrival fun j => j == i) = 1) ∧
      ((t.run.log.countP (Event.isArrival fun _ => true) : Nat) : Int) = t.run.groupSize) :=
  ⟨by decide, rfl, worker_count 1 5 (BoardingGate.new 1) (by decide) rfl⟩

/-! ## Cohort sizes -/

/-- C7 refuted as stated: `boardGroup(1, 0, gate 1)` on the free gate 1 reports nothing, it
takes the gate, starts no passenger thread and returns with the gate still held, after which
none of its threads can move; and the driver of `automatedSimulation` handing size 0 to
`boardGroup` leaves gate 1 of the pool of `main` held. -/
theorem empty_cohort_takes_gate :
    boardGroup 1 0 (BoardingGate.new 1) [.main, .main, .main, .main] =
      some (⟨1, 0, .returned, [], ⟨0, 0, 0⟩, [.groupStarted 1 1, .gateAcquired 1]⟩, ⟨1, 0⟩) ∧
    (∀ a, GroupRun.step ⟨1, 0, .returned, [], ⟨0, 0, 0⟩, [.groupStarted 1 1, .gateAcquired 1]⟩
      ⟨1, 0⟩ a = none) ∧
    (System.exec (System.init mainGates)
        [.driverTry, .driverRelease 1 0, .group 0 .main, .group 0 .main, .group 0 .main,
          .group 0 .main]).map (fun s => s.gates) =
      some [⟨1, 0⟩, BoardingGate.new 2, BoardingGate.new 3] := by
  refine ⟨by decide, ?_, by decide⟩
  intro a
  cases a <;> rfl

/-! ## manualSimulation -/

theorem promptLoop_pos :
    ∀ (fuel : Nat) (c : Console) (n v : Int) (c1 : Console),
      promptLoop fuel c n = some (v, c1) → 1 ≤ v := by
  intro fuel
  induction fuel with
  | zero =>
    intro c n v c1 h
    simp only [promptLoop] at h
    by_cases hn : n ≤ 0
    · simp [hn] at h
    · simp only [hn, if_false, Option.some.injEq, Prod.mk.injEq] at h
      omega
  | succ fuel ih =>
    intro c n v c1 h
    simp only [promptLoop] at h
    by_cases hn : n ≤ 0
    · simp only [hn, if_true] at h
      exact ih _ _ v c1 h
    · simp only [hn, if_false, Option.some.injEq, Prod.mk.injEq] at h
      omega

theorem readSizes_pos (fuel : Nat) :
    ∀ (k : Nat) (c : Console) (sizes : List Int) (c1 : Console),
      readSizes fuel k c = some (sizes, c1) →
      sizes.length = k ∧ ∀ size ∈ sizes, 1 ≤ size := by
  intro k
  induction k with
  | zero =>
    intro c sizes c1 h
    simp only [readSizes, Option.some.injEq, Prod.mk.injEq] at h
    rw [← h.1]
    simp
  | succ k ih =>
    intro c sizes c1 h
    simp only [readSizes] at h
    cases h1 : readPositive fuel c with
    | none => simp [h1] at h
    | some vr =>
      obtain ⟨v, r⟩ := vr
      simp only [h1] at h
      cases h2 : readSizes fuel k r with
      | none => simp [h2] at h
      | some sr =>
        obtain ⟨ss, r1⟩ := sr
        simp only [h2, Option.some.injEq, Prod.mk.injEq] at h
        obtain ⟨hlen, hall⟩ := ih r ss r1 h2
        rw [← h.1]
        refine ⟨by simp [hlen], ?_⟩
        intro size hmem
        rcases List.mem_cons.1 hmem with rfl | hmem
        · exact promptLoop_pos fuel _ _ _ r h1
        · exact hall size hmem

theorem manualInput_pos {fuel : Nat} {c c1 : Console} {groupSizes : List Int}
    (h : manualInput fuel c = some (groupSizes, c1)) :
    (∀ size ∈ groupSizes, 1 ≤ size) ∧ 1 ≤ groupSizes.length := by
  unfold manualInput at h
  cases h1 : readPositive fuel c with
  | none => simp [h1] at h
  | some vr =>
    obtain ⟨groupCount, r⟩ := vr
    simp only [h1] at h
    have hc : 1 ≤ groupCount := promptLoop_pos fuel _ _ _ r h1
    obtain ⟨hlen, hall⟩ := readSizes_pos fuel _ r groupSizes c1 h
    exact ⟨hall, by omega⟩

theorem manualInputsFrom_sizes (sched : Nat → List GroupAction) :
    ∀ (sizes : List Int) (k : Nat) (c : Console),
      (manualInputsFrom k sizes c sched).map (fun inp => inp.size) = sizes := by
  intro sizes
  induction sizes with
  | nil => intro k c; rfl
  | cons size rest ih =>
    intro k c
    simp only [manualInputsFrom, List.map_cons, ih]

theorem manualSimulation_sizes (fuel : Nat) :
    ∀ (inputs : List ManualInput) (gates : List BoardingGate) (groupId : Int)
      (recs : List ManualGroup) (gates1 : List BoardingGate),
      manualSimulation fuel gates groupId inputs = some (recs, gates1) →
      ∀ rec ∈ recs, ∃ inp ∈ inputs, rec.run.groupSize = inp.size := by
  intro inputs
  induction inputs with
  | nil =>
    intro gates groupId recs gates1 h
    simp only [manualSimulation, Option.some.injEq, Prod.mk.injEq] at h
    rw [← h.1]
    simp
  | cons inp rest ih =>
    intro gates groupId recs gates1 h
    simp only [manualSimulation] at h
    cases hf : manualFindGate fuel gates with
    | none => simp [hf] at h
    | some found =>
      obtain ⟨a, sleeps, gates2⟩ := found
      simp only [hf] at h
      cases hg : gates2[a]? with
      | none => simp [hg] at h
      | some gate =>
        simp only [hg] at h
        cases hb : boardGroup groupId inp.size gate inp.sched with
        | none => simp [hb] at h
        | some s =>
          simp only [hb] at h
          have hsize : s.1.groupSize = inp.size :=
            (GroupRun.exec_static _ _ s (boardGroup_eq_some.1 hb).1).1
          by_cases hx : inp.typedExit = true
          · simp only [hx, if_true, Option.some.injEq, Prod.mk.injEq] at h
            intro rec hrec
            rw [← h.1] at hrec
            simp only [List.mem_singleton] at hrec
            subst hrec
            exact ⟨inp, List.mem_cons_self _ _, hsize⟩
          · simp only [hx, Bool.false_eq_true, if_false] at h
            cases hrest : manualSimulation fuel (gates2.set a s.2) (groupId + 1) rest with
            | none => simp [hrest] at h
            | some out =>
              obtain ⟨recs1, gates3⟩ := out
              simp only [hrest, Option.some.injEq, Prod.mk.injEq] at h
              intro rec hrec
              rw [← h.1] at hrec
              rcases List.mem_cons.1 hrec with rfl | hrec
              · exact ⟨inp, List.mem_cons_self _ _, hsize⟩
              · obtain ⟨i, hi, he⟩ := ih _ _ recs1 gates3 hrest rec hrec
                exact ⟨i, List.mem_cons_of_mem _ hi, he⟩

theorem System.step_group_sizes {s s1 : System} {a : SysAction} (hs : s.step a = some s1) :
    ∀ t1 ∈ s1.groups, (∃ t ∈ s.groups, t1.run.groupSize = t.run.groupSize) ∨
      a.cohortSize = some t1.run.groupSize := by
  intro t1 ht1
  cases a with
  | driverTry =>
    simp only [System.step] at hs
    cases hd : s.driver with
    | probed j => simp [hd] at hs
    | scanning j =>
      simp only [hd] at hs
      cases hj : s.gates[j]? with
      | none =>
        simp only [hj, Option.some.injEq] at hs
        subst hs
        exact Or.inl ⟨t1, ht1, rfl⟩
      | some gate =>
        simp only [hj] at hs
        by_cases ht : gate.try_acquire.1 = true
        · simp only [ht, if_true, Option.some.injEq] at hs
          subst hs
          exact Or.inl ⟨t1, ht1, rfl⟩
        · simp only [ht, Bool.false_eq_true, if_false, Option.some.injEq] at hs
          subst hs
          exact Or.inl ⟨t1, ht1, rfl⟩
  | driverRelease groupId size =>
    simp only [System.step] at hs
    cases hd : s.driver with
    | scanning j => simp [hd] at hs
    | probed j =>
      simp only [hd] at hs
      cases hj : s.gates[j]? with
      | none => simp [hj] at hs
      | some gate =>
        simp only [hj, Option.some.injEq] at hs
        subst hs
        rcases List.mem_append.1 ht1 with h1 | h1
        · exact Or.inl ⟨t1, h1, rfl⟩
        · simp only [List.mem_singleton] at h1
          subst h1
          exact Or.inr rfl
  | group k a =>
    simp only [System.step] at hs
    cases hk : s.groups[k]? with
    | none => simp [hk] at hs
    | some t =>
      simp only [hk] at hs
      cases hj : s.gates[t.gate]? with
      | none => simp [hj] at hs
      | some gate =>
        simp only [hj] at hs
        cases hst : t.run.step gate a with
        | none => simp [hst] at hs
        | some r1 =>
          simp only [hst, Option.some.injEq] at hs
          subst hs
          have hmem : t ∈ s.groups := List.mem_iff_getElem?.2 ⟨k, hk⟩
          rcases List.mem_or_eq_of_mem_set ht1 with h1 | h1
          · exact Or.inl ⟨t1, h1, rfl⟩
          · subst h1
            exact Or.inl ⟨t, hmem, (GroupRun.step_static hst).1⟩

theorem AutomatedRun.step_sizes {groupSizes : List Int} {s s1 : AutomatedRun}
    {a : AutomatedAction} (hs : s.step groupSizes a = some s1)
    (h : ∀ t ∈ s.sys.groups, t.run.groupSize ∈ groupSizes) :
    ∀ t ∈ s1.sys.groups, t.run.groupSize ∈ groupSizes := by
  intro t1 ht1
  cases a with
  | driver =>
    simp only [AutomatedRun.step] at hs
    cases hsz : groupSizes[s.groupId - 1]? with
    | none => simp [hsz] at hs
    | some size =>
      simp only [hsz] at hs
      have hin : size ∈ groupSizes := List.mem_iff_getElem?.2 ⟨_, hsz⟩
      cases hd : s.sys.driver with
      | scanning j =>
        simp only [hd] at hs
        cases hst : s.sys.step .driverTry with
        | none => simp [hst] at hs
        | some sys1 =>
          simp only [hst, Option.some.injEq] at hs
          subst hs
          rcases System.step_group_sizes hst t1 ht1 with ⟨t, ht, he⟩ | he
          · rw [he]; exact h t ht
          · simp [SysAction.cohortSize] at he
      | probed j =>
        simp only [hd] at hs
        cases hst : s.sys.step (.driverRelease s.groupId size) with
        | none => simp [hst] at hs
        | some sys1 =>
          simp only [hst, Option.some.injEq] at hs
          subst hs
          rcases System.step_group_sizes hst t1 ht1 with ⟨t, ht, he⟩ | he
          · rw [he]; exact h t ht
          · simp only [SysAction.cohortSize, Option.some.injEq] at he
            rw [← he]
            exact hin
  | group k a =>
    simp only [AutomatedRun.step] at hs
    cases hst : s.sys.step (.group k a) with
    | none => simp [hst] at hs
    | some sys1 =>
      simp only [hst, Option.some.injEq] at hs
      subst hs
      rcases System.step_group_sizes hst t1 ht1 with ⟨t, ht, he⟩ | he
      · rw [he]; exact h t ht
      · simp [SysAction.cohortSize] at he

theorem AutomatedRun.exec_sizes (groupSizes : List Int) :
    ∀ (acts : List AutomatedAction) (s s1 : AutomatedRun),
      AutomatedRun.exec groupSizes s acts = some s1 →
      (∀ t ∈ s.sys.groups, t.run.groupSize ∈ groupSizes) →
      ∀ t ∈ s1.sys.groups, t.run.groupSize ∈ groupSizes := by
  intro acts
  induction acts with
  | nil =>
    intro s s1 he h
    simp only [AutomatedRun.exec, Option.some.injEq] at he
    subst he
    exact h
  | cons a acts ih =>
    intro s s1 he h
    simp only [AutomatedRun.exec] at he
    cases hs : s.step groupSizes a with
    | none => simp [hs] at he
    | some s2 =>
      simp only [hs] at he
      exact ih s2 s1 he (AutomatedRun.step_sizes hs h)

/-- C7 as amended: every `boardGroup` call that `main` makes has a cohort of one or more. In
`manualSimulation` the boarding loop runs on the sizes the input part has put into
`groupSizes`, which are all positive (the input part asks again as long as the number read
is zero or less, and touches no gate), so every group it boards has a size of at least one;
in `automatedSimulation` called on the list of `main`, every group started has its size
from that list, 5, 4, 6, 3 or 7. -/
theorem cohort_sizes_positive (fuel : Nat) (gates : List BoardingGate) (c c1 : Console)
    (sched : Nat → List GroupAction) (groupSizes : List Int)
    (h : manualInput fuel c = some (groupSizes, c1)) :
    (∀ size ∈ groupSizes, 1 ≤ size) ∧ 1 ≤ groupSizes.length ∧
    manualSimulationOnInput fuel gates c sched =
      manualSimulation fuel gates 1 (manualInputsFrom 0 groupSizes c1 sched) ∧
    (manualInputsFrom 0 groupSizes c1 sched).map (fun inp => inp.size) = groupSizes ∧
    (∀ recs gates1, manualSimulationOnInput fuel gates c sched = some (recs, gates1) →
      ∀ rec ∈ recs, rec.run.groupSize ∈ groupSizes ∧ 1 ≤ rec.run.groupSize) ∧
    (∀ acts s, automatedSimulation gates mainGroupSizes acts = some s →
      ∀ t ∈ s.sys.groups, t.run.groupSize ∈ mainGroupSizes ∧ 1 ≤ t.run.groupSize) := by
  obtain ⟨hpos, hlen⟩ := manualInput_pos h
  have hdef : manualSimulationOnInput fuel gates c sched =
      manualSimulation fuel gates 1 (manualInputsFrom 0 groupSizes c1 sched) := by
    simp only [manualSimulationOnInput, h]
  have hmap := manualInputsFrom_sizes sched groupSizes 0 c1
  refine ⟨hpos, hlen, hdef, hmap, ?_, ?_⟩
  · intro recs gates1 hrun rec hrec
    rw [hdef] at hrun
    obtain ⟨inp, hinp, he⟩ := manualSimulation_sizes fuel _ gates 1 recs gates1 hrun rec hrec
    have hin : inp.size ∈ groupSizes := by
      rw [← hmap]
      exact List.mem_map.2 ⟨inp, hinp, rfl⟩
    rw [he]
    exact ⟨hin, hpos _ hin⟩
  · intro acts s hrun t ht
    have hall : ∀ size ∈ mainGroupSizes, (1 : Int) ≤ size := by decide
    have hin := AutomatedRun.exec_sizes mainGroupSizes acts _ s hrun
      (by intro t ht; simp [System.init] at ht) t ht
    exact ⟨hin, hall _ hin⟩

theorem cohort_sizes_positive_witness :
    manualInput 3 sampleConsole = some ([3, 3], sampleConsoleEnd) ∧
    (manualSimulationOnInput 3 mainGates sampleConsole (fun _ => sampleSchedule)).map
      (fun out => out.1.map (fun rec => (rec.groupId, rec.run.groupSize))) =
      some [(1, 3), (2, 3)] ∧
    (∀ size ∈ ([3, 3] : List Int), 1 ≤ size) ∧ 1 ≤ ([3, 3] : List Int).length ∧
    manualSimulationOnInput 3 mainGates sampleConsole (fun _ => sampleSchedule) =
      manualSimulation 3 mainGates 1
        (manualInputsFrom 0 [3, 3] sampleConsoleEnd (fun _ => sampleSchedule)) ∧
    (manualInputsFrom 0 [3, 3] sampleConsoleEnd (fun _ => sampleSchedule)).map
      (fun inp => inp.size) = [3, 3] ∧
    (∀ recs gates1,
      manualSimulationOnInput 3 mainGates sampleConsole (fun _ => sampleSchedule) =
        some (recs, gates1) →
      ∀ rec ∈ recs, rec.run.groupSize ∈ ([3, 3] : List Int) ∧ 1 ≤ rec.run.groupSize) ∧
    (∀ acts s, automatedSimulation mainGates mainGroupSizes acts = some s →
      ∀ t ∈ s.sys.groups, t.run.groupSize ∈ mainGroupSizes ∧ 1 ≤ t.run.groupSize) :=
  ⟨by decide, by decide,
    cohort_sizes_positive 3 mainGates sampleConsole sampleConsoleEnd (fun _ => sampleSchedule)
      [3, 3] (by decide)⟩

end Boarding
